import Mathlib

/-!
# theology-qa: the question store of `server.js`

A shallow embedding of the three handlers of `src/server.js`
(`GET /api/questions`, `GET /api/question/:id`, `POST /api/post`) and of the
start-up seeding block, over an explicit model of the three SQLite tables.

Modelling decisions, each taken from the source and from the documented
behaviour of the libraries it calls:

* The store is the content of the tables `questions`, `tags`, `question_tags`
  in storage (rowid) order, plus the two `sqlite_sequence` counters that the
  `AUTOINCREMENT` keyword maintains.  Rowids are the non-negative 64-bit
  integers: an insert into a table whose counter or largest rowid has reached
  `2^63 - 1` fails with SQLITE_FULL and writes nothing.
* An integer that SQLite hands to JavaScript (`info.lastInsertRowid`, the `id`
  of a fetched row) becomes a JavaScript number, a double: it is exact up to
  `2^53` and rounded to 53 significant bits above (`jsNumber`).  The numbers
  written to `question_tags` and answered to the client are these doubles.
* Request fields are JavaScript values: absent (`undefined`), `null`,
  booleans, numbers, strings, arrays and objects.  A number is identified
  with the text that SQLite stores for it in a column of TEXT affinity.
* `better-sqlite3` binds `undefined` and `null` as NULL, binds numbers and
  strings, spreads an array argument into positional parameters, and throws
  on every other value and on a wrong number of parameters.  Every column
  written through a bound request field has TEXT affinity, so such a value is
  NULL or a text.
* `DOMPurify.sanitize(marked(x))` is a parameter `render : String → String`;
  `marked` throws on an input that is not a string.
* `CURRENT_TIMESTAMP` is a parameter `now` (seconds, one-second resolution).
* The handlers open no transaction: every statement is committed on its own,
  so a handler that throws returns the store as it was at the throw.
* The path parameter of `GET /api/question/:id` is taken as the integer it
  denotes.
-/

namespace TheologyQA

/-! ## Values -/

/-- JavaScript values that reach the handlers through `req.body`. -/
inductive JsVal where
  | undefined : JsVal
  | null : JsVal
  | bool (b : Bool) : JsVal
  | num (text : String) : JsVal
  | str (s : String) : JsVal
  | arr (xs : List JsVal) : JsVal
  | obj : JsVal

/-- SQL values of the text columns: `none` is NULL, `some s` is TEXT. -/
abbrev SqlVal := Option String

/-- Exceptions that the handlers can raise. -/
inductive JsError where
  | typeError : JsError
  | rangeError : JsError
  | markedError : JsError
  | sqliteConstraint : JsError
  | sqliteFull : JsError
  deriving DecidableEq, Repr

deriving instance DecidableEq for Except

/-! ## Tables -/

/-- A row of `questions (id, title NOT NULL, body NOT NULL, html, created_at)`. -/
structure QuestionRow where
  id : Nat
  title : String
  body : String
  html : Option String
  created_at : Nat
  deriving DecidableEq, Repr

/-- A row of `tags (id, name UNIQUE)`. -/
structure TagRow where
  id : Nat
  name : Option String
  deriving DecidableEq, Repr

/-- A row of `question_tags (question_id, tag_id, UNIQUE(question_id, tag_id))`. -/
structure QuestionTagRow where
  question_id : Nat
  tag_id : Nat
  deriving DecidableEq, Repr

/-- The database: the three tables and the two AUTOINCREMENT counters. -/
structure Store where
  questions : List QuestionRow
  tags : List TagRow
  question_tags : List QuestionTagRow
  questions_seq : Nat
  tags_seq : Nat
  deriving DecidableEq, Repr

/-- The database right after the three `CREATE TABLE IF NOT EXISTS`. -/
def Store.empty : Store :=
  { questions := [], tags := [], question_tags := [], questions_seq := 0, tags_seq := 0 }

/-- Constraint `tags.name UNIQUE`: no two tag rows share a name (NULL is not a
name and may repeat). -/
def Store.UniqueNames (s : Store) : Prop :=
  s.tags.Pairwise (fun a b => a.name = none ∨ a.name ≠ b.name)

instance (s : Store) : Decidable s.UniqueNames := by
  unfold Store.UniqueNames
  infer_instance

/-- Uniqueness constraints of the schema: both primary keys, `tags.name UNIQUE`
and `UNIQUE(question_id, tag_id)`. -/
def Store.WF (s : Store) : Prop :=
  (s.questions.map (fun q => q.id)).Nodup ∧
  (s.tags.map (fun t => t.id)).Nodup ∧
  s.UniqueNames ∧
  s.question_tags.Nodup

instance (s : Store) : Decidable s.WF := by
  unfold Store.WF
  infer_instance

/-! ## better-sqlite3 parameter binding -/

/-- One bound value: numbers and strings bind, `null` and `undefined` bind as
NULL, anything else is a TypeError. -/
def bindValue : JsVal → Except JsError SqlVal
  | .num t => .ok (some t)
  | .str s => .ok (some s)
  | .null => .ok none
  | .undefined => .ok none
  | _ => .error .typeError

/-- Bind every element of an array argument. -/
def bindArray : List JsVal → Except JsError (List SqlVal)
  | [] => .ok []
  | v :: vs =>
    match bindValue v with
    | .error e => .error e
    | .ok x =>
      match bindArray vs with
      | .error e => .error e
      | .ok xs => .ok (x :: xs)

/-- One argument of `.run(...)` / `.get(...)`: an array is spread; a plain
object names parameters, of which the statements have none, so it binds
nothing. -/
def bindArg : JsVal → Except JsError (List SqlVal)
  | .arr xs => bindArray xs
  | .obj => .ok []
  | v =>
    match bindValue v with
    | .error e => .error e
    | .ok x => .ok [x]

/-- All arguments of `.run(...)` / `.get(...)`, left to right. -/
def bindArgs : List JsVal → Except JsError (List SqlVal)
  | [] => .ok []
  | a :: as =>
    match bindArg a with
    | .error e => .error e
    | .ok xs =>
      match bindArgs as with
      | .error e => .error e
      | .ok ys => .ok (xs ++ ys)

/-! ## SQL statements -/

/-- Largest rowid of SQLite, `2^63 - 1`. -/
def maxRowid : Nat := 2 ^ 63 - 1

/-- Bound `2^53` up to which every integer is a JavaScript number. -/
def maxExact : Nat := 2 ^ 53

/-- Number of low bits that a double drops from an integer below `2^(53 + fuel)`:
the halvings needed to bring it below `2^53`. -/
def droppedBits : Nat → Nat → Nat
  | 0, _ => 0
  | fuel + 1, n => if n < maxExact then 0 else droppedBits fuel (n / 2) + 1

/-- The JavaScript number (IEEE double) nearest to a 64-bit non-negative
integer: exact up to `2^53`, rounded to 53 significant bits, ties to even,
above. -/
def jsNumber (n : Nat) : Nat :=
  if n ≤ maxExact then n
  else
    let e := droppedBits 64 n
    let q := n / 2 ^ e
    let r := n % 2 ^ e
    let half := 2 ^ (e - 1)
    if half < r ∨ (r = half ∧ q % 2 = 1) then (q + 1) * 2 ^ e else q * 2 ^ e

/-- Rowid chosen by an AUTOINCREMENT table: one more than the largest rowid
ever used (the counter) and than the largest rowid present; none, for
SQLITE_FULL, when that has reached the largest rowid. -/
def nextRowid (seq : Nat) (ids : List Nat) : Option Nat :=
  if max seq (ids.foldr max 0) < maxRowid then some (max seq (ids.foldr max 0) + 1)
  else none

/-- Rowid that the next insert into `questions` receives. -/
def Store.nextQuestionId (s : Store) : Option Nat :=
  nextRowid s.questions_seq (s.questions.map (fun q => q.id))

/-- Rowid that the next insert into `tags` generates. -/
def Store.nextTagId (s : Store) : Option Nat :=
  nextRowid s.tags_seq (s.tags.map (fun t => t.id))

/-- Statement `INSERT INTO questions (title, body, html) VALUES (?,?,?)`;
returns `lastInsertRowid` as the engine holds it.  The rowid is generated
before the NOT NULL checks. -/
def insertQuestion (s : Store) (now : Nat) (args : List JsVal) :
    Except JsError (Nat × Store) :=
  match bindArgs args with
  | .error e => .error e
  | .ok [title, body, html] =>
    match s.nextQuestionId with
    | none => .error .sqliteFull
    | some rowid =>
      match title, body with
      | some t, some b =>
        .ok (rowid, { s with
          questions := s.questions ++ [⟨rowid, t, b, html, now⟩],
          questions_seq := rowid })
      | _, _ => .error .sqliteConstraint
  | .ok _ => .error .rangeError

/-- Statement `INSERT OR IGNORE INTO tags (name) VALUES (?)`.  The rowid is
generated (and the counter advanced) before the UNIQUE check. -/
def insertOrIgnoreTag (s : Store) (args : List JsVal) : Except JsError Store :=
  match bindArgs args with
  | .error e => .error e
  | .ok [name] =>
    match s.nextTagId with
    | none => .error .sqliteFull
    | some rowid =>
      if name.isSome ∧ ∃ t ∈ s.tags, t.name = name then
        .ok { s with tags_seq := rowid }
      else
        .ok { s with tags := s.tags ++ [⟨rowid, name⟩], tags_seq := rowid }
  | .ok _ => .error .rangeError

/-- Statement `SELECT id FROM tags WHERE name=?` with `.get`: the first
matching row, `none` for JavaScript `undefined`.  `name = NULL` matches nothing. -/
def selectTagId (s : Store) (args : List JsVal) : Except JsError (Option TagRow) :=
  match bindArgs args with
  | .error e => .error e
  | .ok [none] => .ok none
  | .ok [some n] => .ok (s.tags.find? (fun t => t.name = some n))
  | .ok _ => .error .rangeError

/-- Statement `INSERT OR IGNORE INTO question_tags (question_id, tag_id) VALUES (?,?)`,
both values being JavaScript numbers. -/
def insertOrIgnoreQuestionTag (s : Store) (qId tagId : Nat) : Store :=
  if (⟨qId, tagId⟩ : QuestionTagRow) ∈ s.question_tags then s
  else { s with question_tags := s.question_tags ++ [⟨qId, tagId⟩] }

/-! ## The write path -/

/-- The tag normaliser, inlined in the source: insert-or-ignore, then look the
identifier up by name; `.get(tagName).id` throws when no row is found and is
a JavaScript number otherwise. -/
def resolve (s : Store) (tagName : JsVal) : Except JsError Nat × Store :=
  match insertOrIgnoreTag s [tagName] with
  | .error e => (.error e, s)
  | .ok s1 =>
    match selectTagId s1 [tagName] with
    | .error e => (.error e, s1)
    | .ok none => (.error .typeError, s1)
    | .ok (some t) => (.ok (jsNumber t.id), s1)

/-- Body of the callback of `tags.forEach`. -/
def tagStep (qId : Nat) (s : Store) (tagName : JsVal) : Except JsError Unit × Store :=
  match resolve s tagName with
  | (.error e, s1) => (.error e, s1)
  | (.ok tagId, s1) => (.ok (), insertOrIgnoreQuestionTag s1 qId tagId)

/-- The loop `tags.forEach(tagName => ...)`; an exception leaves it at once. -/
def tagsForEach (qId : Nat) : Store → List JsVal → Except JsError Unit × Store
  | s, [] => (.ok (), s)
  | s, t :: ts =>
    match tagStep qId s t with
    | (.error e, s1) => (.error e, s1)
    | (.ok _, s1) => tagsForEach qId s1 ts

/-- Call `marked(body)`, followed by `DOMPurify.sanitize`. -/
def marked (render : String → String) : JsVal → Except JsError String
  | .str b => .ok (render b)
  | _ => .error .markedError

/-- Request body of `POST /api/post`; an absent field is `undefined`. -/
structure PostRequest where
  title : JsVal
  body : JsVal
  tags : JsVal

/-- Response of `POST /api/post`. -/
inductive PostResponse where
  | success (id : Nat) : PostResponse
  | serverError : PostResponse
  deriving DecidableEq, Repr

/-- Handler `app.post('/api/post')`; `qId` is the JavaScript number
`info.lastInsertRowid`. -/
def post (render : String → String) (s : Store) (now : Nat) (req : PostRequest) :
    PostResponse × Store :=
  let tags := match req.tags with
    | .undefined => JsVal.arr []
    | v => v
  match marked render req.body with
  | .error _ => (.serverError, s)
  | .ok html =>
    match insertQuestion s now [req.title, req.body, .str html] with
    | .error _ => (.serverError, s)
    | .ok (rowid, s1) =>
      match tags with
      | .arr ts =>
        match tagsForEach (jsNumber rowid) s1 ts with
        | (.error _, s2) => (.serverError, s2)
        | (.ok _, s2) => (.success (jsNumber rowid), s2)
      | _ => (.serverError, s1)

/-! ## Seeding -/

/-- An element of `seedQuestions`. -/
structure SeedQuestion where
  title : String
  body : String
  tags : List String

/-- The array `seedQuestions` of `server.js`. -/
def seedQuestions : List SeedQuestion :=
  [ ⟨"Can a person rely on the Bible for morality?",
      "Discussion about morality from the Bible.", ["Morality", "Bible", "Theology"]⟩,
    ⟨"Do spiritual entities exist in rivers, mountains, trees, fjords, and lakes?",
      "Discussion about spirits in nature.", ["Theology", "Spirits", "Nature"]⟩,
    ⟨"Did the God of Moses create the Universe?",
      "Exploring creation in the Bible.", ["Bible", "Theology", "Creation"]⟩,
    ⟨"Did God demand Abraham to sacrifice his son?",
      "Ethics in Abraham's story.", ["Bible", "Theology", "Ethics"]⟩,
    ⟨"Can the Creator of the Universe be jealous?",
      "God's attributes discussion.", ["Bible", "Theology", "Attributes"]⟩,
    ⟨"If God gave humans free will, why are we punished for our choices?",
      "Free will and consequences.", ["Theology", "Ethics", "Free Will"]⟩,
    ⟨"Logic behind giving land occupied by people to another group",
      "Discussion on biblical land promises.", ["Bible", "Theology", "Ethics", "History"]⟩,
    ⟨"If God spared Abraham's son, why not Jephtah's daughter?",
      "Ethical questions in biblical stories.", ["Bible", "Theology", "Ethics"]⟩,
    ⟨"God instructs King Saul to kill the Amalekites, aren't they His creation?",
      "Ethics and war in the Bible.", ["Bible", "Theology", "Ethics", "Warfare"]⟩,
    ⟨"God appears to Abram as El, Exodus 6:3; but did not know him as Yahweh – which one is God?",
      "Names of God discussion.", ["Bible", "Theology", "Names of God"]⟩,
    ⟨"God instructs Israelites to rape female captives – Deuteronomy 21:10",
      "Controversial ethical instructions in the Bible.", ["Bible", "Ethics", "Controversial"]⟩,
    ⟨"Is evolution supported in the Bible?",
      "Bible and evolution discussion.", ["Bible", "Theology", "Science", "Evolution"]⟩ ]

/-- Body of the callback of `seedQuestions.forEach`. -/
def seedQuestion (render : String → String) (s : Store) (now : Nat) (q : SeedQuestion) :
    Except JsError Unit × Store :=
  match marked render (.str q.body) with
  | .error e => (.error e, s)
  | .ok html =>
    match insertQuestion s now [.str q.title, .str q.body, .str html] with
    | .error e => (.error e, s)
    | .ok (rowid, s1) => tagsForEach (jsNumber rowid) s1 (q.tags.map JsVal.str)

/-- The loop `seedQuestions.forEach`, the k-th insert reading the clock `clock k`. -/
def seedFrom (render : String → String) (clock : Nat → Nat) :
    Nat → Store → List SeedQuestion → Except JsError Unit × Store
  | _, s, [] => (.ok (), s)
  | k, s, q :: qs =>
    match seedQuestion render s (clock k) q with
    | (.error e, s1) => (.error e, s1)
    | (.ok _, s1) => seedFrom render clock (k + 1) s1 qs

/-- Start-up block: seed only when `SELECT COUNT(*) FROM questions` is 0. -/
def seed (render : String → String) (clock : Nat → Nat) (s : Store) : Store :=
  if s.questions.length = 0 then (seedFrom render clock 0 s seedQuestions).2 else s

/-! ## The read path -/

/-- Response of `GET /api/question/:id`: the row with `q.tags = tags`, or 404. -/
inductive GetResponse where
  | found (q : QuestionRow) (tags : List (Option String)) : GetResponse
  | notFound : GetResponse
  deriving DecidableEq, Repr

/-- The associations of one question, read through the index that
`UNIQUE(question_id, tag_id)` creates: by ascending `tag_id`. -/
def searchQuestionTags (s : Store) (qId : Nat) : List QuestionTagRow :=
  (s.question_tags.filter (fun a => a.question_id = qId)).insertionSort
    (fun a b => a.tag_id ≤ b.tag_id)

/-- Query `SELECT t.name FROM tags t JOIN question_tags qt ON t.id = qt.tag_id
WHERE qt.question_id=?`: the associations of the question, each joined with
the tag rows of its `tag_id`. -/
def selectTagNames (s : Store) (qId : Nat) : List (Option String) :=
  (searchQuestionTags s qId).flatMap (fun a =>
    (s.tags.filter (fun t => t.id = a.tag_id)).map (fun t => t.name))

/-- Handler `app.get('/api/question/:id')`: the response and the store after
it.  The fetched `q.id` is a JavaScript number, in the answer and as the
parameter of the tag query. -/
def getById (s : Store) (id : Nat) : GetResponse × Store :=
  match s.questions.find? (fun q => q.id = id) with
  | none => (.notFound, s)
  | some q => (.found { q with id := jsNumber q.id } (selectTagNames s (jsNumber q.id)), s)

/-- A row of the join `questions q LEFT JOIN question_tags qt LEFT JOIN tags t`,
reduced to the columns the query reads: `q.*` and `t.name`. -/
structure JoinRow where
  q : QuestionRow
  name : Option String
  deriving DecidableEq, Repr

/-- Second LEFT JOIN: the tags matching one association, or one NULL row. -/
def leftJoinTags (s : Store) (a : QuestionTagRow) : List (Option String) :=
  match s.tags.filter (fun t => a.tag_id = t.id) with
  | [] => [none]
  | t :: ts => (t :: ts).map (fun t => t.name)

/-- First LEFT JOIN: the associations of one question, or one NULL row. -/
def leftJoinQuestion (s : Store) (q : QuestionRow) : List JoinRow :=
  match searchQuestionTags s q.id with
  | [] => [⟨q, none⟩]
  | a :: as => ((a :: as).flatMap (leftJoinTags s)).map (fun n => ⟨q, n⟩)

/-- The joined rows, in scan order of `questions`. -/
def joinRows (s : Store) : List JoinRow :=
  s.questions.flatMap (leftJoinQuestion s)

/-- Clause `GROUP BY q.id` over rows that arrive ordered by `q.id`: a new group
starts whenever the key changes. -/
def groupById : List JoinRow → List (QuestionRow × List (Option String))
  | [] => []
  | r :: rs =>
    match groupById rs with
    | [] => [(r.q, [r.name])]
    | (q, ns) :: gs =>
      if q.id = r.q.id then (r.q, r.name :: ns) :: gs
      else (r.q, [r.name]) :: (q, ns) :: gs

/-- Comma-joined text of a list of names, NULL for the empty list. -/
def concatNames : List String → Option String
  | [] => none
  | x :: xs => some (String.intercalate "," (x :: xs))

/-- Aggregate `GROUP_CONCAT(t.name)`: the non-NULL values joined by a comma,
NULL when there is none. -/
def groupConcat (ns : List (Option String)) : Option String :=
  concatNames (ns.filterMap (fun n => n))

/-- A row of the response of `GET /api/questions`. -/
structure ListRow where
  id : Nat
  title : String
  body : String
  html : Option String
  created_at : Nat
  tags : Option String
  deriving DecidableEq, Repr

/-- Clause `ORDER BY q.created_at DESC`; the sorter is stable, so rows with
equal keys keep their group order. -/
def orderByCreatedAtDesc (rows : List ListRow) : List ListRow :=
  rows.insertionSort (fun a b => a.created_at ≥ b.created_at)

/-- Handler `app.get('/api/questions')`; each `id` of the answer is a
JavaScript number. -/
def listAll (s : Store) : List ListRow :=
  orderByCreatedAtDesc
    ((groupById (joinRows s)).map (fun g =>
      ⟨jsNumber g.1.id, g.1.title, g.1.body, g.1.html, g.1.created_at, groupConcat g.2⟩))

/-! ## Reachable stores -/

/-- Stores reachable from the empty database by start-up seeding and by
`POST /api/post` requests, whatever those requests answer. -/
inductive Reachable (render : String → String) : Store → Prop where
  | empty : Reachable render Store.empty
  | seed (clock : Nat → Nat) (s : Store) :
      Reachable render s → Reachable render (seed render clock s)
  | post (s : Store) (now : Nat) (req : PostRequest) :
      Reachable render s → Reachable render (post render s now req).2

/-! ## Auxiliary definitions used in the statements -/

/-- Store `s'` extends `s` by tag rows and by associations of question `qId`. -/
def Extends (qId : Nat) (s s' : Store) : Prop :=
  s'.questions = s.questions ∧ s'.questions_seq = s.questions_seq ∧
  (∃ ta, s'.tags = s.tags ++ ta) ∧
  (∃ qa, s'.question_tags = s.question_tags ++ qa ∧ ∀ a ∈ qa, a.question_id = qId)

/-- The request fields that pass `marked` and the binding and NOT NULL checks
of the question insert: a text body and a title that binds to exactly one
value, which is not NULL. -/
def Insertable (req : PostRequest) (t b : String) : Prop :=
  req.body = .str b ∧ bindArg req.title = .ok [some t]

/-- The question row that `POST /api/post` inserts under rowid `r`. -/
def newQuestion (render : String → String) (now : Nat) (t b : String) (r : Nat) :
    QuestionRow :=
  ⟨r, t, b, some (render b), now⟩

/-- The store right after the question insert of `POST /api/post`. -/
def afterInsert (render : String → String) (s : Store) (now : Nat) (t b : String)
    (r : Nat) : Store :=
  { s with
    questions := s.questions ++ [newQuestion render now t b r],
    questions_seq := r }

/-- The list that `tags.forEach` runs over, `none` when `tags` has no `forEach`. -/
def tagList : JsVal → Option (List JsVal)
  | .undefined => some []
  | .arr ts => some ts
  | _ => none

/-- Every stored html is the rendering of the stored body. -/
def HtmlRendered (render : String → String) (s : Store) : Prop :=
  ∀ q ∈ s.questions, q.html = some (render q.body)

/-- Data-model invariant: every association refers to a question row that
exists. -/
def RefsExist (s : Store) : Prop :=
  ∀ a ∈ s.question_tags, ∃ q ∈ s.questions, q.id = a.question_id

instance (s : Store) : Decidable (RefsExist s) := by
  unfold RefsExist
  infer_instance

/-- No question or tag identifier of the store exceeds `2^53`, so every one of
them is a JavaScript number. -/
def Store.ExactIds (s : Store) : Prop :=
  (∀ q ∈ s.questions, q.id ≤ maxExact) ∧ (∀ t ∈ s.tags, t.id ≤ maxExact)

instance (s : Store) : Decidable s.ExactIds := by
  unfold Store.ExactIds
  infer_instance

/-- The `t.name` column of the joined rows of one question. -/
def joinNames (s : Store) (q : QuestionRow) : List (Option String) :=
  match searchQuestionTags s q.id with
  | [] => [none]
  | a :: as => (a :: as).flatMap (leftJoinTags s)

/-- The response row built from one group of the join. -/
def toListRow (g : QuestionRow × List (Option String)) : ListRow :=
  ⟨jsNumber g.1.id, g.1.title, g.1.body, g.1.html, g.1.created_at, groupConcat g.2⟩

/-- The request posted again and again to reach large counters. -/
def seriesRequest : PostRequest :=
  ⟨.str "T", .str "B", .arr [.str "Old"]⟩

/-- The store after `n` posts of `seriesRequest` at time 0 from the empty
store: the questions `1 .. n`, each linked to the one tag "Old". -/
def seriesStore (render : String → String) (n : Nat) : Store :=
  { questions := (List.range n).map (fun k => ⟨k + 1, "T", "B", some (render "B"), 0⟩),
    tags := if n = 0 then [] else [⟨1, some "Old"⟩],
    question_tags := (List.range n).map (fun k => ⟨k + 1, 1⟩),
    questions_seq := n,
    tags_seq := n }

/-- The request posted to the store whose counters stand at `2^53`. -/
def lateRequest : PostRequest :=
  ⟨.str "X", .str "Y", .arr [.str "New"]⟩

/-- The store after `lateRequest` is posted at time `now` to `seriesStore render n`,
for an `n` whose successor is rounded down to `n`. -/
def lateStoreAt (render : String → String) (now n : Nat) : Store :=
  { questions := (seriesStore render n).questions ++
      [⟨n + 1, "X", "Y", some (render "Y"), now⟩],
    tags := [⟨1, some "Old"⟩, ⟨n + 1, some "New"⟩],
    question_tags := (seriesStore render n).question_tags ++ [⟨n, n⟩],
    questions_seq := n + 1,
    tags_seq := n + 1 }

/-- The store after `lateRequest` is posted at time `now` to `seriesStore render (2^53)`. -/
def lateStore (render : String → String) (now : Nat) : Store :=
  lateStoreAt render now maxExact


/-! # Theorems -/
/-! ## Binding lemmas -/

theorem jsNumber_of_le {n : Nat} (h : n ≤ maxExact) : jsNumber n = n := by
  unfold jsNumber
  rw [if_pos h]

theorem maxExact_lt_maxRowid : maxExact < maxRowid := by
  decide

/-- With a text body and a text html, the question insert goes through exactly
when the title argument binds to one value that is not NULL and the counter
is not exhausted. -/
theorem insertQuestion_ok_iff (s : Store) (now : Nat) (title : JsVal) (b h : String)
    (r : Nat) (s1 : Store) :
    insertQuestion s now [title, .str b, .str h] = .ok (r, s1) ↔
      (∃ t, bindArg title = .ok [some t] ∧ s.nextQuestionId = some r ∧
        s1 = { s with
          questions := s.questions ++ [⟨r, t, b, some h, now⟩],
          questions_seq := r }) := by
  have hb : bindArgs [title, .str b, .str h] =
      match bindArg title with
      | .error e => .error e
      | .ok xs => .ok (xs ++ [some b, some h]) := by
    simp only [bindArgs, bindArg, bindValue, List.append_nil, List.singleton_append]
  unfold insertQuestion
  rw [hb]
  cases ht : bindArg title with
  | error e => simp
  | ok xs =>
    rcases xs with _ | ⟨x, _ | ⟨y, xs⟩⟩
    · simp
    · cases hn : s.nextQuestionId with
      | none => simp
      | some r2 =>
        cases x with
        | none => simp
        | some t =>
          simp only [List.singleton_append, Except.ok.injEq, Prod.mk.injEq, List.cons.injEq,
            Option.some.injEq, and_true]
          constructor
          · rintro ⟨h1, h2⟩
            exact ⟨t, rfl, h1, by rw [← h2, ← h1]⟩
          · rintro ⟨t2, ht2, h1, h2⟩
            subst ht2
            exact ⟨h1, by rw [h2, h1]⟩
    · rcases xs with _ | ⟨z, xs⟩ <;> simp

/-! ## The loop only appends rows -/

theorem Extends.refl (qId : Nat) (s : Store) : Extends qId s s :=
  ⟨rfl, rfl, ⟨[], by simp⟩, ⟨[], by simp⟩⟩

theorem Extends.trans {qId : Nat} {s s1 s2 : Store}
    (h1 : Extends qId s s1) (h2 : Extends qId s1 s2) : Extends qId s s2 := by
  obtain ⟨a1, b1, ⟨ta1, c1⟩, ⟨qa1, d1, e1⟩⟩ := h1
  obtain ⟨a2, b2, ⟨ta2, c2⟩, ⟨qa2, d2, e2⟩⟩ := h2
  refine ⟨a2.trans a1, b2.trans b1, ⟨ta1 ++ ta2, ?_⟩, ⟨qa1 ++ qa2, ?_, ?_⟩⟩
  · rw [c2, c1, List.append_assoc]
  · rw [d2, d1, List.append_assoc]
  · intro a ha
    rcases List.mem_append.1 ha with h | h
    · exact e1 a h
    · exact e2 a h

theorem insertOrIgnoreTag_extends (qId : Nat) (s s1 : Store) (args : List JsVal)
    (h : insertOrIgnoreTag s args = .ok s1) : Extends qId s s1 := by
  unfold insertOrIgnoreTag at h
  split at h
  · cases h
  · split at h
    · cases h
    · split at h
      · injection h with h
        subst h
        exact ⟨rfl, rfl, ⟨[], by simp⟩, ⟨[], by simp⟩⟩
      · injection h with h
        subst h
        exact ⟨rfl, rfl, ⟨_, rfl⟩, ⟨[], by simp⟩⟩
  · cases h

theorem resolve_extends (qId : Nat) (s : Store) (v : JsVal) :
    Extends qId s (resolve s v).2 := by
  unfold resolve
  cases h : insertOrIgnoreTag s [v] with
  | error e => exact Extends.refl _ _
  | ok s1 =>
    have := insertOrIgnoreTag_extends qId s s1 _ h
    cases h2 : selectTagId s1 [v] with
    | error e => simp only [h2]; exact this
    | ok o =>
      cases o with
      | none => simp only [h2]; exact this
      | some t => simp only [h2]; exact this

theorem insertOrIgnoreQuestionTag_extends (qId tagId : Nat) (s : Store) :
    Extends qId s (insertOrIgnoreQuestionTag s qId tagId) := by
  unfold insertOrIgnoreQuestionTag
  split
  · exact Extends.refl _ _
  · exact ⟨rfl, rfl, ⟨[], by simp⟩, ⟨[⟨qId, tagId⟩], rfl, by simp⟩⟩

theorem tagStep_extends (qId : Nat) (s : Store) (v : JsVal) :
    Extends qId s (tagStep qId s v).2 := by
  have h := resolve_extends qId s v
  unfold tagStep
  rcases hr : resolve s v with ⟨r, s1⟩
  rw [hr] at h
  cases r with
  | error e => exact h
  | ok t => exact h.trans (insertOrIgnoreQuestionTag_extends qId t s1)

theorem tagsForEach_extends (qId : Nat) (s : Store) (ts : List JsVal) :
    Extends qId s (tagsForEach qId s ts).2 := by
  induction ts generalizing s with
  | nil => exact Extends.refl _ _
  | cons t ts ih =>
    have h := tagStep_extends qId s t
    unfold tagsForEach
    rcases hr : tagStep qId s t with ⟨r, s1⟩
    rw [hr] at h
    cases r with
    | error e => exact h
    | ok u => exact h.trans (ih s1)

/-! ## The post handler, case by case -/

theorem post_of_not_insertable (render : String → String) (s : Store) (now : Nat)
    (req : PostRequest) (h : ¬ ∃ t b r, Insertable req t b ∧ s.nextQuestionId = some r) :
    post render s now req = (.serverError, s) := by
  unfold post
  cases hb : req.body with
  | undefined => simp [marked]
  | null => simp [marked]
  | bool x => simp [marked]
  | num x => simp [marked]
  | arr x => simp [marked]
  | obj => simp [marked]
  | str b =>
    simp only [marked]
    cases hq : insertQuestion s now [req.title, .str b, .str (render b)] with
    | error e => rfl
    | ok p =>
      obtain ⟨r, s1⟩ := p
      obtain ⟨t, ht, hn, -⟩ := (insertQuestion_ok_iff s now req.title b (render b) r s1).1 hq
      exact absurd ⟨t, b, r, ⟨hb, ht⟩, hn⟩ h

theorem post_of_insertable (render : String → String) (s : Store) (now : Nat)
    (req : PostRequest) (t b : String) (r : Nat) (h : Insertable req t b)
    (hn : s.nextQuestionId = some r) :
    post render s now req =
      match tagList req.tags with
      | none => (.serverError, afterInsert render s now t b r)
      | some ts =>
        match tagsForEach (jsNumber r) (afterInsert render s now t b r) ts with
        | (.error _, s2) => (.serverError, s2)
        | (.ok _, s2) => (.success (jsNumber r), s2) := by
  obtain ⟨hb, ht⟩ := h
  have hq : insertQuestion s now [req.title, .str b, .str (render b)] =
      .ok (r, afterInsert render s now t b r) :=
    (insertQuestion_ok_iff s now req.title b (render b) _ _).2 ⟨t, ht, hn, rfl⟩
  unfold post
  simp only [hb, marked, hq]
  cases req.tags <;> simp [tagList]

theorem post_extends (render : String → String) (s : Store) (now : Nat)
    (req : PostRequest) (t b : String) (r : Nat) (h : Insertable req t b)
    (hn : s.nextQuestionId = some r) :
    Extends (jsNumber r) (afterInsert render s now t b r) (post render s now req).2 := by
  rw [post_of_insertable render s now req t b r h hn]
  cases tagList req.tags with
  | none => exact Extends.refl _ _
  | some ts =>
    have := tagsForEach_extends (jsNumber r) (afterInsert render s now t b r) ts
    simp only
    rcases hr : tagsForEach (jsNumber r) (afterInsert render s now t b r) ts with ⟨res, s2⟩
    rw [hr] at this
    cases res <;> exact this

/-! ## Fresh row identifiers -/

theorem le_foldr_max (ids : List Nat) (i : Nat) (h : i ∈ ids) : i ≤ ids.foldr max 0 := by
  induction ids with
  | nil => cases h
  | cons a as ih =>
    simp only [List.foldr_cons]
    rcases List.mem_cons.1 h with h | h
    · subst h
      exact le_max_left _ _
    · exact le_trans (ih h) (le_max_right _ _)

theorem lt_nextRowid (seq : Nat) (ids : List Nat) (r i : Nat)
    (hr : nextRowid seq ids = some r) (h : i ∈ ids) : i < r := by
  unfold nextRowid at hr
  split at hr
  · injection hr with hr
    have := le_foldr_max ids i h
    omega
  · cases hr

theorem nextRowid_not_mem (seq : Nat) (ids : List Nat) (r : Nat)
    (hr : nextRowid seq ids = some r) : r ∉ ids :=
  fun h => lt_irrefl _ (lt_nextRowid seq ids r r hr h)

theorem nextRowid_bounds (seq : Nat) (ids : List Nat) (r : Nat)
    (hr : nextRowid seq ids = some r) : seq < r ∧ r ≤ maxRowid := by
  unfold nextRowid at hr
  split at hr
  · injection hr with hr
    omega
  · cases hr

theorem nextRowid_isSome (seq : Nat) (ids : List Nat) (b : Nat) (hb : b ≤ maxRowid)
    (hs : seq < b) (hi : ∀ i ∈ ids, i < b) : ∃ r, nextRowid seq ids = some r ∧ r ≤ b := by
  have hf : ids.foldr max 0 < b := by
    induction ids with
    | nil => simp only [List.foldr_nil]; omega
    | cons a as ih =>
      simp only [List.foldr_cons]
      have h1 := hi a (List.mem_cons_self _ _)
      have h2 := ih (fun i h => hi i (List.mem_cons_of_mem _ h))
      exact max_lt h1 h2
  have hm : max seq (ids.foldr max 0) < b := max_lt hs hf
  refine ⟨max seq (ids.foldr max 0) + 1, ?_, hm⟩
  unfold nextRowid
  rw [if_pos (lt_of_lt_of_le hm hb)]

/-! ## Tag resolution on a text name -/

theorem unique_name_eq {s : Store} (hu : s.UniqueNames) {t1 t2 : TagRow} {n : String}
    (h1 : t1 ∈ s.tags) (h2 : t2 ∈ s.tags) (e1 : t1.name = some n) (e2 : t2.name = some n) :
    t1 = t2 := by
  by_contra hne
  have hs : Symmetric (fun a b : TagRow => a.name = none ∨ a.name ≠ b.name) := by
    intro a b hab
    rcases hab with hab | hab
    · by_cases hb : b.name = none
      · exact Or.inl hb
      · exact Or.inr (fun e => hb (e.trans hab))
    · exact Or.inr (fun e => hab e.symm)
  rcases List.Pairwise.forall hs hu h1 h2 hne with h | h
  · rw [e1] at h
    cases h
  · exact h (e1.trans e2.symm)

theorem find_name_of_mem {s : Store} (hu : s.UniqueNames) {t : TagRow} {n : String}
    (h : t ∈ s.tags) (e : t.name = some n) :
    s.tags.find? (fun t => t.name = some n) = some t := by
  cases hf : s.tags.find? (fun t => t.name = some n) with
  | none =>
    have := List.find?_eq_none.1 hf t h
    simp [e] at this
  | some t2 =>
    have h2 := List.mem_of_find?_eq_some hf
    have e2 := List.find?_some hf
    simp only [decide_eq_true_eq] at e2
    rw [unique_name_eq hu h2 h e2 e]

/-- Resolving the name of an existing tag: its identifier as a JavaScript
number, no new row. -/
theorem resolve_existing {s : Store} (hu : s.UniqueNames) {t : TagRow} {n : String} {r : Nat}
    (h : t ∈ s.tags) (e : t.name = some n) (hn : s.nextTagId = some r) :
    resolve s (.str n) = (.ok (jsNumber t.id), { s with tags_seq := r }) := by
  have hex : (some n).isSome = true ∧ ∃ t ∈ s.tags, t.name = some n := ⟨rfl, t, h, e⟩
  simp only [resolve, insertOrIgnoreTag, bindArgs, bindArg, bindValue, List.append_nil, hn]
  rw [if_pos hex]
  simp only [selectTagId, bindArgs, bindArg, bindValue, List.append_nil, find_name_of_mem hu h e]

/-- Resolving a name that no tag carries: one new row with a fresh identifier. -/
theorem resolve_new {s : Store} {n : String} {r : Nat} (h : ∀ t ∈ s.tags, t.name ≠ some n)
    (hn : s.nextTagId = some r) :
    resolve s (.str n) =
      (.ok (jsNumber r), { s with tags := s.tags ++ [⟨r, some n⟩], tags_seq := r }) := by
  have hex : ¬ ((some n).isSome = true ∧ ∃ t ∈ s.tags, t.name = some n) := by
    rintro ⟨-, t, ht, e⟩
    exact h t ht e
  have hf : s.tags.find? (fun t => t.name = some n) = none := by
    apply List.find?_eq_none.2
    intro t ht
    simpa using h t ht
  simp only [resolve, insertOrIgnoreTag, bindArgs, bindArg, bindValue, List.append_nil, hn]
  rw [if_neg hex]
  simp only [selectTagId, bindArgs, bindArg, bindValue, List.append_nil, List.find?_append, hf]
  simp

/-- Resolving any text name when the tags counter is exhausted: SQLITE_FULL. -/
theorem resolve_full {s : Store} (n : String) (hn : s.nextTagId = none) :
    resolve s (.str n) = (.error .sqliteFull, s) := by
  simp only [resolve, insertOrIgnoreTag, bindArgs, bindArg, bindValue, List.append_nil, hn]

/-! ## The schema constraints are preserved -/

theorem insertOrIgnoreTag_WF (s s1 : Store) (args : List JsVal) (hw : s.WF)
    (h : insertOrIgnoreTag s args = .ok s1) : s1.WF := by
  obtain ⟨hq, ht, hn, ha⟩ := hw
  unfold insertOrIgnoreTag at h
  split at h
  · cases h
  · rename_i name _
    split at h
    · cases h
    · rename_i rowid hrow
      split at h
      · injection h with h
        subst h
        exact ⟨hq, ht, hn, ha⟩
      · rename_i hc
        injection h with h
        subst h
        refine ⟨hq, ?_, ?_, ha⟩
        · simp only [List.map_append, List.map_cons, List.map_nil]
          refine List.Nodup.append ht (List.nodup_singleton _) ?_
          intro i hi hi2
          rw [List.mem_singleton] at hi2
          subst hi2
          exact nextRowid_not_mem _ _ _ hrow hi
        · unfold Store.UniqueNames
          simp only
          rw [List.pairwise_append]
          refine ⟨hn, List.pairwise_singleton _ _, ?_⟩
          intro a ha2 b hb
          rw [List.mem_singleton] at hb
          subst hb
          simp only
          by_cases hnone : a.name = none
          · exact Or.inl hnone
          · refine Or.inr (fun e => hc ⟨?_, a, ha2, e⟩)
            rw [← e]
            cases hx : a.name with
            | none => exact absurd hx hnone
            | some x => rfl
  · cases h

theorem insertOrIgnoreQuestionTag_WF (s : Store) (qId tagId : Nat) (hw : s.WF) :
    (insertOrIgnoreQuestionTag s qId tagId).WF := by
  obtain ⟨hq, ht, hn, ha⟩ := hw
  unfold insertOrIgnoreQuestionTag
  split
  · exact ⟨hq, ht, hn, ha⟩
  · rename_i hc
    refine ⟨hq, ht, hn, ?_⟩
    simp only
    refine List.Nodup.append ha (List.nodup_singleton _) ?_
    intro a h1 h2
    rw [List.mem_singleton] at h2
    subst h2
    exact hc h1

theorem resolve_WF (s : Store) (v : JsVal) (hw : s.WF) : (resolve s v).2.WF := by
  unfold resolve
  cases h : insertOrIgnoreTag s [v] with
  | error e => exact hw
  | ok s1 =>
    have := insertOrIgnoreTag_WF s s1 _ hw h
    cases h2 : selectTagId s1 [v] with
    | error e => simp only [h2]; exact this
    | ok o =>
      cases o with
      | none => simp only [h2]; exact this
      | some t => simp only [h2]; exact this

theorem tagStep_WF (qId : Nat) (s : Store) (v : JsVal) (hw : s.WF) :
    (tagStep qId s v).2.WF := by
  have h := resolve_WF s v hw
  unfold tagStep
  rcases hr : resolve s v with ⟨r, s1⟩
  rw [hr] at h
  cases r with
  | error e => exact h
  | ok t => exact insertOrIgnoreQuestionTag_WF s1 qId t h

theorem tagsForEach_WF (qId : Nat) (s : Store) (ts : List JsVal) (hw : s.WF) :
    (tagsForEach qId s ts).2.WF := by
  induction ts generalizing s with
  | nil => exact hw
  | cons t ts ih =>
    have h := tagStep_WF qId s t hw
    unfold tagsForEach
    rcases hr : tagStep qId s t with ⟨r, s1⟩
    rw [hr] at h
    cases r with
    | error e => exact h
    | ok u => exact ih s1 h

theorem afterInsert_WF (render : String → String) (s : Store) (now : Nat) (t b : String)
    (r : Nat) (hn : s.nextQuestionId = some r) (hw : s.WF) :
    (afterInsert render s now t b r).WF := by
  obtain ⟨hq, ht, hu, ha⟩ := hw
  refine ⟨?_, ht, hu, ha⟩
  simp only [afterInsert, newQuestion, List.map_append, List.map_cons, List.map_nil]
  refine List.Nodup.append hq (List.nodup_singleton _) ?_
  intro i hi hi2
  rw [List.mem_singleton] at hi2
  subst hi2
  exact nextRowid_not_mem _ _ _ hn hi

theorem post_WF (render : String → String) (s : Store) (now : Nat) (req : PostRequest)
    (hw : s.WF) : (post render s now req).2.WF := by
  by_cases h : ∃ t b r, Insertable req t b ∧ s.nextQuestionId = some r
  · obtain ⟨t, b, r, h, hn⟩ := h
    rw [post_of_insertable render s now req t b r h hn]
    have h1 := afterInsert_WF render s now t b r hn hw
    cases tagList req.tags with
    | none => exact h1
    | some ts =>
      have := tagsForEach_WF (jsNumber r) _ ts h1
      simp only
      rcases hr : tagsForEach (jsNumber r) (afterInsert render s now t b r) ts with ⟨res, s2⟩
      rw [hr] at this
      cases res <;> exact this
  · rw [post_of_not_insertable render s now req h]
    exact hw

/-- One seeding step: nothing happens when the counter is exhausted, otherwise
the row is inserted and the tag loop runs. -/
theorem seedQuestion_eq (render : String → String) (s : Store) (now : Nat) (q : SeedQuestion) :
    seedQuestion render s now q =
      match s.nextQuestionId with
      | none => (.error .sqliteFull, s)
      | some r =>
        tagsForEach (jsNumber r) (afterInsert render s now q.title q.body r)
          (q.tags.map JsVal.str) := by
  cases hn : s.nextQuestionId with
  | none =>
    simp only [seedQuestion, marked, insertQuestion, bindArgs, bindArg, bindValue,
      List.append_nil, List.singleton_append, hn]
  | some r =>
    have hq : insertQuestion s now [.str q.title, .str q.body, .str (render q.body)] =
        .ok (r, afterInsert render s now q.title q.body r) :=
      (insertQuestion_ok_iff s now _ q.body (render q.body) _ _).2 ⟨q.title, rfl, hn, rfl⟩
    simp only [seedQuestion, marked, hq]

theorem seedFrom_WF (render : String → String) (clock : Nat → Nat) (k : Nat) (s : Store)
    (qs : List SeedQuestion) (hw : s.WF) : (seedFrom render clock k s qs).2.WF := by
  induction qs generalizing s k with
  | nil => exact hw
  | cons q qs ih =>
    have h : (seedQuestion render s (clock k) q).2.WF := by
      rw [seedQuestion_eq]
      cases hn : s.nextQuestionId with
      | none => exact hw
      | some r => exact tagsForEach_WF _ _ _ (afterInsert_WF render s _ _ _ r hn hw)
    unfold seedFrom
    rcases hr : seedQuestion render s (clock k) q with ⟨r, s1⟩
    rw [hr] at h
    cases r with
    | error e => exact h
    | ok u => exact ih (k + 1) s1 h

theorem seed_WF (render : String → String) (clock : Nat → Nat) (s : Store) (hw : s.WF) :
    (seed render clock s).WF := by
  unfold seed
  split
  · exact seedFrom_WF render clock 0 s _ hw
  · exact hw

theorem Reachable.WF {render : String → String} {s : Store} (h : Reachable render s) :
    s.WF := by
  induction h with
  | empty => decide
  | seed clock s _ ih => exact seed_WF render clock s ih
  | post s now req _ ih => exact post_WF render s now req ih

/-! ## The loop over text names -/

theorem mem_insertOrIgnoreQuestionTag (s : Store) (qId tagId : Nat) (a : QuestionTagRow) :
    a ∈ (insertOrIgnoreQuestionTag s qId tagId).question_tags ↔
      a ∈ s.question_tags ∨ a = ⟨qId, tagId⟩ := by
  unfold insertOrIgnoreQuestionTag
  split
  · rename_i hc
    constructor
    · exact Or.inl
    · rintro (h | h)
      · exact h
      · rw [h]; exact hc
  · simp

theorem insertOrIgnoreQuestionTag_tags (s : Store) (qId tagId : Nat) :
    (insertOrIgnoreQuestionTag s qId tagId).tags = s.tags := by
  unfold insertOrIgnoreQuestionTag
  split <;> rfl

/-- A successful step of the loop on a text name: afterwards a tag carries the
name, and the association written is the question number with the JavaScript
number of that tag's identifier. -/
theorem tagStep_str (N : Nat) (s s1 : Store) (n : String) (hw : s.WF)
    (h : tagStep N s (.str n) = (.ok (), s1)) :
    ∃ t ∈ s1.tags, t.name = some n ∧
      ∀ a, a ∈ s1.question_tags ↔ a ∈ s.question_tags ∨ a = ⟨N, jsNumber t.id⟩ := by
  cases hn : s.nextTagId with
  | none =>
    simp only [tagStep, resolve_full n hn] at h
    cases h
  | some r =>
    by_cases hex : ∃ t ∈ s.tags, t.name = some n
    · obtain ⟨t, ht, e⟩ := hex
      simp only [tagStep, resolve_existing hw.2.2.1 ht e hn, Prod.mk.injEq, true_and] at h
      subst h
      refine ⟨t, ?_, e, ?_⟩
      · rw [insertOrIgnoreQuestionTag_tags]
        exact ht
      · intro a
        exact mem_insertOrIgnoreQuestionTag { s with tags_seq := r } _ _ _
    · have h2 : ∀ t ∈ s.tags, t.name ≠ some n := fun t ht e => hex ⟨t, ht, e⟩
      simp only [tagStep, resolve_new h2 hn, Prod.mk.injEq, true_and] at h
      subst h
      refine ⟨⟨r, some n⟩, ?_, rfl, ?_⟩
      · rw [insertOrIgnoreQuestionTag_tags]
        simp
      · intro a
        exact mem_insertOrIgnoreQuestionTag
          { s with tags := s.tags ++ [⟨r, some n⟩], tags_seq := r } _ _ _

theorem tagsForEach_str (N : Nat) (names : List String) (s s' : Store) (hw : s.WF)
    (h : tagsForEach N s (names.map JsVal.str) = (.ok (), s'))
    (hx : ∀ t ∈ s'.tags, t.id ≤ maxExact) :
    (∀ n ∈ names, ∃ t ∈ s'.tags, t.name = some n ∧
      (⟨N, t.id⟩ : QuestionTagRow) ∈ s'.question_tags) ∧
    (∀ a ∈ s'.question_tags, a ∈ s.question_tags ∨
      ∃ n ∈ names, ∃ t ∈ s'.tags, t.name = some n ∧ a = ⟨N, t.id⟩) := by
  induction names generalizing s with
  | nil =>
    simp only [List.map_nil, tagsForEach, Prod.mk.injEq, true_and] at h
    subst h
    exact ⟨by simp, fun a ha => Or.inl ha⟩
  | cons n names ih =>
    simp only [List.map_cons, tagsForEach] at h
    rcases hr : tagStep N s (.str n) with ⟨res, s1⟩
    rw [hr] at h
    cases res with
    | error e => simp at h
    | ok u =>
      simp only at h
      obtain ⟨t, ht, e, hm⟩ := tagStep_str N s s1 n hw hr
      have hw1 : s1.WF := by
        have := tagStep_WF N s (.str n) hw
        rwa [hr] at this
      obtain ⟨hin, hall2⟩ := ih s1 hw1 h
      have hext : Extends N s1 s' := by
        have := tagsForEach_extends N s1 (names.map JsVal.str)
        rwa [h] at this
      obtain ⟨-, -, ⟨ta, hta⟩, ⟨qa, hqa, -⟩⟩ := hext
      have ht' : t ∈ s'.tags := by rw [hta]; exact List.mem_append_left _ ht
      have hid : jsNumber t.id = t.id := jsNumber_of_le (hx t ht')
      rw [hid] at hm
      refine ⟨?_, ?_⟩
      · intro m hmem
        rcases List.mem_cons.1 hmem with hmem | hmem
        · subst hmem
          refine ⟨t, ht', e, ?_⟩
          rw [hqa]
          exact List.mem_append_left _ ((hm _).2 (Or.inr rfl))
        · exact hin m hmem
      · intro a ha
        rcases hall2 a ha with h | ⟨m, hm2, t2, ht2, e2, ha2⟩
        · rcases (hm a).1 h with h | h
          · exact Or.inl h
          · exact Or.inr ⟨n, List.mem_cons_self _ _, t, ht', e, h⟩
        · exact Or.inr ⟨m, List.mem_cons_of_mem _ hm2, t2, ht2, e2, ha2⟩

/-- A successful post: the rowid assigned and the store reached. -/
theorem post_success (render : String → String) (s s' : Store) (now N : Nat)
    (req : PostRequest) (h : post render s now req = (.success N, s')) :
    ∃ t b r ts, Insertable req t b ∧ s.nextQuestionId = some r ∧ N = jsNumber r ∧
      tagList req.tags = some ts ∧
      tagsForEach (jsNumber r) (afterInsert render s now t b r) ts = (.ok (), s') := by
  by_cases hi : ∃ t b r, Insertable req t b ∧ s.nextQuestionId = some r
  · obtain ⟨t, b, r, hi, hn⟩ := hi
    rw [post_of_insertable render s now req t b r hi hn] at h
    cases htl : tagList req.tags with
    | none => simp [htl] at h
    | some ts =>
      simp only [htl] at h
      rcases hr : tagsForEach (jsNumber r) (afterInsert render s now t b r) ts with ⟨res, s2⟩
      rw [hr] at h
      cases res with
      | error e => simp at h
      | ok u =>
        simp only [Prod.mk.injEq, PostResponse.success.injEq] at h
        exact ⟨t, b, r, ts, hi, hn, h.1.symm, rfl, by rw [hr, h.2]⟩
  · rw [post_of_not_insertable render s now req hi] at h
    simp at h

/-- A successful post with text title, body and tag names, whose identifiers
stay within the exact range. -/
theorem post_text (render : String → String) (s s' : Store) (now N : Nat) (t b : String)
    (names : List String) (hw : s.WF)
    (hp : post render s now ⟨.str t, .str b, .arr (names.map JsVal.str)⟩ = (.success N, s'))
    (hx : s'.ExactIds) :
    s.nextQuestionId = some N ∧ s'.WF ∧ Extends N (afterInsert render s now t b N) s' ∧
      (∀ n ∈ names, ∃ r ∈ s'.tags, r.name = some n ∧
        (⟨N, r.id⟩ : QuestionTagRow) ∈ s'.question_tags) ∧
      (∀ a ∈ s'.question_tags, a ∈ s.question_tags ∨
        ∃ n ∈ names, ∃ r ∈ s'.tags, r.name = some n ∧ a = ⟨N, r.id⟩) := by
  obtain ⟨t2, b2, r, ts, hi, hn, hN, htl, hloop⟩ := post_success render s s' now N _ hp
  obtain ⟨hb, ht⟩ := hi
  simp only [JsVal.str.injEq] at hb
  simp only [bindArg, bindValue, Except.ok.injEq, List.cons.injEq, Option.some.injEq,
    and_true] at ht
  subst hb ht
  simp only [tagList, Option.some.injEq] at htl
  subst htl
  have hext : Extends (jsNumber r) (afterInsert render s now t b r) s' := by
    have := tagsForEach_extends (jsNumber r) (afterInsert render s now t b r)
      (names.map JsVal.str)
    rwa [hloop] at this
  have hr : r ≤ maxExact := by
    apply hx.1 (newQuestion render now t b r)
    rw [hext.1]
    simp [afterInsert]
  have hjs : jsNumber r = r := jsNumber_of_le hr
  rw [hjs] at hN hloop hext
  subst hN
  have hw1 := afterInsert_WF render s now t b N hn hw
  have hw' : s'.WF := by
    have := tagsForEach_WF N (afterInsert render s now t b N) (names.map JsVal.str) hw1
    rwa [hloop] at this
  obtain ⟨h1, h2⟩ := tagsForEach_str N names _ s' hw1 hloop hx.2
  exact ⟨hn, hw', hext, h1, h2⟩

/-! ## Reading a question back -/

theorem mem_searchQuestionTags (s : Store) (qId : Nat) (a : QuestionTagRow) :
    a ∈ searchQuestionTags s qId ↔ a ∈ s.question_tags ∧ a.question_id = qId := by
  simp [searchQuestionTags, List.mem_insertionSort]

theorem mem_selectTagNames (s : Store) (qId : Nat) (x : Option String) :
    x ∈ selectTagNames s qId ↔
      ∃ a ∈ s.question_tags, a.question_id = qId ∧
        ∃ t ∈ s.tags, t.id = a.tag_id ∧ t.name = x := by
  simp only [selectTagNames, List.mem_flatMap, mem_searchQuestionTags, List.mem_map,
    List.mem_filter, decide_eq_true_eq]
  constructor
  · rintro ⟨a, ⟨ha, hq⟩, t, ⟨ht, hid⟩, hx⟩
    exact ⟨a, ha, hq, t, ht, hid, hx⟩
  · rintro ⟨a, ha, hq, t, ht, hid, hx⟩
    exact ⟨a, ⟨ha, hq⟩, t, ⟨ht, hid⟩, hx⟩

/-- The tag query returns, up to order, the names of the tag rows joined to
the associations of the question, read off the two tables. -/
theorem selectTagNames_perm (s : Store) (qId : Nat) :
    (selectTagNames s qId).Perm
      ((s.question_tags.filter (fun a => a.question_id = qId)).flatMap (fun a =>
        (s.tags.filter (fun t => t.id = a.tag_id)).map (fun t => t.name))) := by
  unfold selectTagNames searchQuestionTags
  exact List.Perm.flatMap_right _ (List.perm_insertionSort _ _)

theorem tag_eq_of_id_eq {s : Store} (hw : s.WF) {t1 t2 : TagRow} (h1 : t1 ∈ s.tags)
    (h2 : t2 ∈ s.tags) (e : t1.id = t2.id) : t1 = t2 :=
  List.inj_on_of_nodup_map hw.2.1 h1 h2 e

theorem selectTagNames_nodup (s : Store) (qId : Nat) (hw : s.WF)
    (hn : ∀ x ∈ selectTagNames s qId, x ≠ none) : (selectTagNames s qId).Nodup := by
  have hmem := hn
  unfold selectTagNames at hn ⊢
  rw [List.nodup_flatMap]
  constructor
  · intro a _
    refine List.Nodup.map_on ?_ ((List.Nodup.of_map _ hw.2.1).filter _)
    intro x hx y hy _
    simp only [List.mem_filter, decide_eq_true_eq] at hx hy
    exact tag_eq_of_id_eq hw hx.1 hy.1 (hx.2.trans hy.2.symm)
  · have hnd : (searchQuestionTags s qId).Nodup :=
      (List.perm_insertionSort _ _).nodup_iff.2 (hw.2.2.2.filter _)
    refine hnd.pairwise_of_forall_ne ?_
    intro a ha b hb hab
    simp only [Function.onFun]
    rw [List.disjoint_left]
    intro x hxa hxb
    simp only [List.mem_map, List.mem_filter, decide_eq_true_eq] at hxa hxb
    obtain ⟨t1, ⟨ht1, hid1⟩, e1⟩ := hxa
    obtain ⟨t2, ⟨ht2, hid2⟩, e2⟩ := hxb
    have hx : x ≠ none := by
      apply hn
      rw [List.mem_flatMap]
      exact ⟨a, ha, List.mem_map.2 ⟨t1, by simp [ht1, hid1], e1⟩⟩
    cases x with
    | none => exact hx rfl
    | some n =>
      have := unique_name_eq hw.2.2.1 ht1 ht2 e1 e2
      apply hab
      have ha2 := (mem_searchQuestionTags s qId a).1 ha
      have hb2 := (mem_searchQuestionTags s qId b).1 hb
      cases a
      cases b
      simp only at ha2 hb2 hid1 hid2
      simp only [QuestionTagRow.mk.injEq]
      exact ⟨ha2.2.trans hb2.2.symm, by rw [← hid1, ← hid2, this]⟩

/-- What the handler answers for a row it finds. -/
theorem getById_of_find (s : Store) (id : Nat) (q : QuestionRow)
    (hf : s.questions.find? (fun q => q.id = id) = some q) :
    q ∈ s.questions ∧ q.id = id ∧
      getById s id =
        (.found { q with id := jsNumber q.id } (selectTagNames s (jsNumber q.id)), s) := by
  have h1 := List.mem_of_find?_eq_some hf
  have h2 := List.find?_some hf
  simp only [decide_eq_true_eq] at h2
  refine ⟨h1, h2, ?_⟩
  simp only [getById, hf]

theorem find_of_mem (s : Store) (id : Nat) (q : QuestionRow) (hq : q ∈ s.questions)
    (e : q.id = id) : ∃ q2, s.questions.find? (fun q => q.id = id) = some q2 := by
  cases hf : s.questions.find? (fun q => q.id = id) with
  | none =>
    have := List.find?_eq_none.1 hf q hq
    simp [e] at this
  | some q2 => exact ⟨q2, rfl⟩

/-- Reading back a question whose identifier is unique and exact. -/
theorem getById_of_mem (s : Store) (q : QuestionRow) (hq : q ∈ s.questions)
    (hnd : (s.questions.map (fun q => q.id)).Nodup) (hx : q.id ≤ maxExact) :
    getById s q.id = (.found q (selectTagNames s q.id), s) := by
  obtain ⟨q2, hf⟩ := find_of_mem s q.id q hq rfl
  obtain ⟨h1, h2, h3⟩ := getById_of_find s q.id q2 hf
  have : q2 = q := List.inj_on_of_nodup_map hnd h1 hq h2
  subst this
  rw [h3, jsNumber_of_le hx]

/-! ## Stored html -/

theorem HtmlRendered.afterInsert {render : String → String} {s : Store}
    (h : HtmlRendered render s) (now : Nat) (t b : String) (r : Nat) :
    HtmlRendered render (afterInsert render s now t b r) := by
  intro q hq
  simp only [TheologyQA.afterInsert, List.mem_append, List.mem_singleton] at hq
  rcases hq with hq | hq
  · exact h q hq
  · rw [hq]
    rfl

theorem HtmlRendered.of_extends {render : String → String} {qId : Nat} {s s' : Store}
    (h : HtmlRendered render s) (he : Extends qId s s') : HtmlRendered render s' := by
  intro q hq
  rw [he.1] at hq
  exact h q hq

theorem post_htmlRendered (render : String → String) (s : Store) (now : Nat)
    (req : PostRequest) (h : HtmlRendered render s) :
    HtmlRendered render (post render s now req).2 := by
  by_cases hi : ∃ t b r, Insertable req t b ∧ s.nextQuestionId = some r
  · obtain ⟨t, b, r, hi, hn⟩ := hi
    exact (h.afterInsert now t b r).of_extends (post_extends render s now req t b r hi hn)
  · rw [post_of_not_insertable render s now req hi]
    exact h

theorem seedFrom_htmlRendered (render : String → String) (clock : Nat → Nat) (k : Nat)
    (s : Store) (qs : List SeedQuestion) (h : HtmlRendered render s) :
    HtmlRendered render (seedFrom render clock k s qs).2 := by
  induction qs generalizing s k with
  | nil => exact h
  | cons q qs ih =>
    have h1 : HtmlRendered render (seedQuestion render s (clock k) q).2 := by
      rw [seedQuestion_eq]
      cases hn : s.nextQuestionId with
      | none => exact h
      | some r => exact (h.afterInsert _ _ _ r).of_extends (tagsForEach_extends _ _ _)
    unfold seedFrom
    rcases hr : seedQuestion render s (clock k) q with ⟨r, s1⟩
    rw [hr] at h1
    cases r with
    | error e => exact h1
    | ok u => exact ih (k + 1) s1 h1

theorem Reachable.htmlRendered {render : String → String} {s : Store}
    (h : Reachable render s) : HtmlRendered render s := by
  induction h with
  | empty =>
    intro q hq
    cases hq
  | seed clock s _ ih =>
    unfold TheologyQA.seed
    split
    · exact seedFrom_htmlRendered render clock 0 s _ ih
    · exact ih
  | post s now req _ ih => exact post_htmlRendered render s now req ih

theorem post_questions (render : String → String) (s : Store) (now : Nat)
    (req : PostRequest) :
    ∃ extra, (post render s now req).2.questions = s.questions ++ extra := by
  by_cases hi : ∃ t b r, Insertable req t b ∧ s.nextQuestionId = some r
  · obtain ⟨t, b, r, hi, hn⟩ := hi
    exact ⟨[newQuestion render now t b r], (post_extends render s now req t b r hi hn).1⟩
  · rw [post_of_not_insertable render s now req hi]
    exact ⟨[], by simp⟩

/-! ## Associations of reachable stores refer to existing questions -/

theorem RefsExist.step {render : String → String} {s s' : Store} (h : RefsExist s)
    (now : Nat) (t b : String) (r : Nat) (hr : r ≤ maxExact)
    (he : Extends (jsNumber r) (afterInsert render s now t b r) s') :
    RefsExist s' := by
  obtain ⟨hq, -, -, ⟨qa, hqa, hall⟩⟩ := he
  intro a ha
  rw [hqa] at ha
  rw [hq]
  rcases List.mem_append.1 ha with ha | ha
  · obtain ⟨q, hq2, e⟩ := h a ha
    exact ⟨q, by simp [afterInsert, hq2], e⟩
  · refine ⟨newQuestion render now t b r, by simp [afterInsert], ?_⟩
    rw [hall a ha, jsNumber_of_le hr]
    rfl

/-- An association of a store with the data-model invariant never carries the
rowid that the next question receives. -/
theorem RefsExist.fresh {s : Store} (h : RefsExist s) {r : Nat}
    (hn : s.nextQuestionId = some r) : ∀ a ∈ s.question_tags, a.question_id ≠ r := by
  intro a ha e
  obtain ⟨q, hq, hid⟩ := h a ha
  exact nextRowid_not_mem _ _ r hn
    (by rw [← e, ← hid]; exact List.mem_map_of_mem _ hq)

theorem seedQuestion_questions (render : String → String) (s : Store) (now : Nat)
    (q : SeedQuestion) :
    ∃ extra, (seedQuestion render s now q).2.questions = s.questions ++ extra := by
  rw [seedQuestion_eq]
  cases hn : s.nextQuestionId with
  | none => exact ⟨[], by simp⟩
  | some r =>
    exact ⟨[newQuestion render now q.title q.body r], (tagsForEach_extends _ _ _).1⟩

theorem seedFrom_questions (render : String → String) (clock : Nat → Nat) (k : Nat)
    (s : Store) (qs : List SeedQuestion) :
    ∃ extra, (seedFrom render clock k s qs).2.questions = s.questions ++ extra := by
  induction qs generalizing s k with
  | nil => exact ⟨[], by simp [seedFrom]⟩
  | cons q qs ih =>
    obtain ⟨e1, h1⟩ := seedQuestion_questions render s (clock k) q
    unfold seedFrom
    rcases hr : seedQuestion render s (clock k) q with ⟨r, s1⟩
    rw [hr] at h1
    cases r with
    | error e => exact ⟨e1, h1⟩
    | ok u =>
      obtain ⟨e2, h2⟩ := ih (k + 1) s1
      simp only at h1
      exact ⟨e1 ++ e2, by rw [h2, h1, List.append_assoc]⟩

theorem seedFrom_refsExist (render : String → String) (clock : Nat → Nat) (k : Nat)
    (s : Store) (qs : List SeedQuestion) (h : RefsExist s)
    (hx : ∀ q ∈ (seedFrom render clock k s qs).2.questions, q.id ≤ maxExact) :
    RefsExist (seedFrom render clock k s qs).2 := by
  induction qs generalizing s k with
  | nil => exact h
  | cons q qs ih =>
    unfold seedFrom at hx ⊢
    rcases hr : seedQuestion render s (clock k) q with ⟨res, s1⟩
    rw [hr] at hx
    have hsub : ∀ x ∈ s1.questions, x.id ≤ maxExact := by
      intro x hxm
      cases res with
      | error e => exact hx x hxm
      | ok u =>
        obtain ⟨e2, h2⟩ := seedFrom_questions render clock (k + 1) s1 qs
        apply hx x
        simp only [h2]
        exact List.mem_append_left _ hxm
    have h1 : RefsExist s1 := by
      have hq := seedQuestion_eq render s (clock k) q
      rw [hr] at hq
      cases hn : s.nextQuestionId with
      | none =>
        rw [hn] at hq
        simp only [Prod.mk.injEq] at hq
        rw [hq.2]
        exact h
      | some r =>
        rw [hn] at hq
        simp only at hq
        have hext := tagsForEach_extends (jsNumber r)
          (afterInsert render s (clock k) q.title q.body r) (q.tags.map JsVal.str)
        rw [← hq] at hext
        refine h.step (clock k) q.title q.body r ?_ hext
        apply hsub (newQuestion render (clock k) q.title q.body r)
        rw [hext.1]
        simp [afterInsert]
    cases res with
    | error e => exact h1
    | ok u => exact ih (k + 1) s1 h1 hx

/-- In a reachable store whose question identifiers are exact, every
association refers to an existing question. -/
theorem Reachable.refsExist {render : String → String} {s : Store}
    (h : Reachable render s) (hx : ∀ q ∈ s.questions, q.id ≤ maxExact) : RefsExist s := by
  induction h with
  | empty =>
    intro a ha
    cases ha
  | seed clock s _ ih =>
    unfold TheologyQA.seed at hx ⊢
    split
    · rename_i h0
      rw [if_pos h0] at hx
      refine seedFrom_refsExist render clock 0 s _ (ih ?_) hx
      intro q hq
      obtain ⟨e, he⟩ := seedFrom_questions render clock 0 s seedQuestions
      apply hx q
      rw [he]
      exact List.mem_append_left _ hq
    · rename_i h0
      rw [if_neg h0] at hx
      exact ih hx
  | post s now req _ ih =>
    have hpre : ∀ q ∈ s.questions, q.id ≤ maxExact := by
      intro q hq
      obtain ⟨e, he⟩ := post_questions render s now req
      apply hx q
      rw [he]
      exact List.mem_append_left _ hq
    by_cases hi : ∃ t b r, Insertable req t b ∧ s.nextQuestionId = some r
    · obtain ⟨t, b, r, hi, hn⟩ := hi
      have hext := post_extends render s now req t b r hi hn
      refine (ih hpre).step now t b r ?_ hext
      apply hx (newQuestion render now t b r)
      rw [hext.1]
      simp [afterInsert]
    · rw [post_of_not_insertable render s now req hi]
      exact ih hpre

/-! ## Where a failing loop stops -/

theorem tagsForEach_error (qId : Nat) (s s' : Store) (ts : List JsVal) (e : JsError)
    (h : tagsForEach qId s ts = (.error e, s')) :
    ∃ done v rest sd, ts = done ++ v :: rest ∧
      tagsForEach qId s done = (.ok (), sd) ∧ tagStep qId sd v = (.error e, s') := by
  induction ts generalizing s with
  | nil => simp [tagsForEach] at h
  | cons t ts ih =>
    unfold tagsForEach at h
    rcases hr : tagStep qId s t with ⟨r, s1⟩
    rw [hr] at h
    cases r with
    | error e1 =>
      simp only [Prod.mk.injEq, Except.error.injEq] at h
      refine ⟨[], t, ts, s, rfl, rfl, ?_⟩
      rw [hr, h.1, h.2]
    | ok u =>
      obtain ⟨done, v, rest, sd, h1, h2, h3⟩ := ih s1 h
      refine ⟨t :: done, v, rest, sd, by rw [h1]; rfl, ?_, h3⟩
      simp only [tagsForEach, hr, h2]

theorem afterInsert_ne (render : String → String) (s : Store) (now : Nat) (t b : String)
    (r : Nat) (s' : Store) (h : s'.questions = (afterInsert render s now t b r).questions) :
    s' ≠ s := by
  intro e
  rw [e] at h
  have := congrArg List.length h
  simp [afterInsert] at this

/-! ## The list query: one group per question -/

theorem leftJoinTags_ne_nil (s : Store) (a : QuestionTagRow) : leftJoinTags s a ≠ [] := by
  unfold leftJoinTags
  split <;> simp

theorem joinNames_ne_nil (s : Store) (q : QuestionRow) : joinNames s q ≠ [] := by
  unfold joinNames
  split
  · simp
  · rename_i a as _
    simp only [List.flatMap_cons]
    intro h
    exact leftJoinTags_ne_nil s a (List.append_eq_nil.1 h).1

theorem leftJoinQuestion_eq (s : Store) (q : QuestionRow) :
    leftJoinQuestion s q = (joinNames s q).map (fun n => ⟨q, n⟩) := by
  unfold leftJoinQuestion joinNames
  split <;> simp_all

/-- The rows of one question, put in front of rows whose first group has
another key, form one group. -/
theorem groupById_block (q : QuestionRow) (n : Option String) (ns : List (Option String))
    (rest : List JoinRow)
    (h : ∀ g ∈ (groupById rest).head?, g.1.id ≠ q.id) :
    groupById ((n :: ns).map (fun n => (⟨q, n⟩ : JoinRow)) ++ rest) =
      (q, n :: ns) :: groupById rest := by
  induction ns generalizing n with
  | nil =>
    show groupById (⟨q, n⟩ :: rest) = (q, [n]) :: groupById rest
    rw [groupById]
    split
    · rename_i hg
      rw [hg]
    · rename_i q' ns' gs hg
      have : q'.id ≠ q.id := h (q', ns') (by simp [hg])
      rw [hg]
      simp [this]
  | cons m ns ih =>
    have := ih m
    simp only [List.map_cons, List.cons_append] at this ⊢
    rw [groupById, this]
    simp

theorem groupById_joinRows (s : Store) (qs : List QuestionRow)
    (hid : (qs.map (fun q => q.id)).Nodup) :
    groupById (qs.flatMap (leftJoinQuestion s)) = qs.map (fun q => (q, joinNames s q)) := by
  induction qs with
  | nil => rfl
  | cons q qs ih =>
    rw [List.map_cons, List.nodup_cons] at hid
    have ih2 := ih hid.2
    rw [List.flatMap_cons, leftJoinQuestion_eq]
    cases hj : joinNames s q with
    | nil => exact absurd hj (joinNames_ne_nil s q)
    | cons n ns =>
      rw [groupById_block q n ns _ ?_, ih2, List.map_cons, hj]
      intro g hg
      rw [ih2] at hg
      cases qs with
      | nil => simp at hg
      | cons q' qs' =>
        simp only [List.map_cons, List.head?_cons, Option.mem_def, Option.some.injEq] at hg
        subst hg
        intro e
        exact hid.1 (by simp [e.symm])

theorem listAll_perm (s : Store) (hid : (s.questions.map (fun q => q.id)).Nodup) :
    (listAll s).Perm (s.questions.map (fun q => toListRow (q, joinNames s q))) := by
  unfold listAll orderByCreatedAtDesc joinRows
  rw [groupById_joinRows s s.questions hid, List.map_map]
  exact List.perm_insertionSort _ _

theorem listAll_sorted (s : Store) :
    (listAll s).Pairwise (fun a b => a.created_at ≥ b.created_at) := by
  haveI : IsTotal ListRow (fun a b => a.created_at ≥ b.created_at) :=
    ⟨fun a b => le_total b.created_at a.created_at⟩
  haveI : IsTrans ListRow (fun a b => a.created_at ≥ b.created_at) :=
    ⟨fun a b c h1 h2 => le_trans h2 h1⟩
  exact List.sorted_insertionSort (fun a b : ListRow => a.created_at ≥ b.created_at) _

/-- In a list sorted by descending key, a member with a larger key stands
before a member with a smaller one. -/
theorem sublist_of_sorted_desc (l : List ListRow)
    (hs : l.Pairwise (fun a b => a.created_at ≥ b.created_at)) (x y : ListRow)
    (hx : x ∈ l) (hy : y ∈ l) (hlt : x.created_at < y.created_at) : [y, x].Sublist l := by
  induction l with
  | nil => cases hx
  | cons h tl ih =>
    rw [List.pairwise_cons] at hs
    rcases List.mem_cons.1 hy with hy1 | hy1
    · rcases List.mem_cons.1 hx with hx1 | hx1
      · rw [hx1, hy1] at hlt
        exact absurd hlt (lt_irrefl _)
      · rw [hy1]
        exact List.Sublist.cons₂ _ (List.singleton_sublist.2 hx1)
    · rcases List.mem_cons.1 hx with hx1 | hx1
      · have := hs.1 y hy1
        rw [hx1] at hlt
        omega
      · exact List.Sublist.cons _ (ih hs.2 hx1 hy1)

theorem filterMap_leftJoinTags (s : Store) (a : QuestionTagRow) :
    (leftJoinTags s a).filterMap (fun n => n) =
      (s.tags.filter (fun t => t.id = a.tag_id)).filterMap (fun t => t.name) := by
  have hf : s.tags.filter (fun t => decide (a.tag_id = t.id)) =
      s.tags.filter (fun t => decide (t.id = a.tag_id)) := by
    congr 1
    funext t
    exact decide_eq_decide.2 eq_comm
  unfold leftJoinTags
  rw [hf]
  split
  · rename_i h
    rw [h]
    rfl
  · rename_i t ts h
    rw [h, List.filterMap_map]
    rfl

theorem filterMap_flatMap {α β γ : Type} (l : List α) (f : α → List β) (g : β → Option γ) :
    (l.flatMap f).filterMap g = l.flatMap (fun a => (f a).filterMap g) := by
  induction l with
  | nil => rfl
  | cons a l ih => simp [List.flatMap_cons, List.filterMap_append, ih]

/-- The names that `GROUP_CONCAT` joins for a question are, up to order, the
names other than NULL of the tag rows joined to its associations. -/
theorem joinNames_perm (s : Store) (q : QuestionRow) :
    ((joinNames s q).filterMap (fun n => n)).Perm
      ((s.question_tags.filter (fun a => a.question_id = q.id)).flatMap (fun a =>
        (s.tags.filter (fun t => t.id = a.tag_id)).filterMap (fun t => t.name))) := by
  have h1 : (joinNames s q).filterMap (fun n => n) =
      (searchQuestionTags s q.id).flatMap (fun a =>
        (s.tags.filter (fun t => t.id = a.tag_id)).filterMap (fun t => t.name)) := by
    unfold joinNames
    split
    · rename_i h
      rw [h]
      rfl
    · rename_i a as h
      rw [h, filterMap_flatMap]
      congr 1
      funext a
      exact filterMap_leftJoinTags s a
  rw [h1]
  unfold searchQuestionTags
  exact List.Perm.flatMap_right _ (List.perm_insertionSort _ _)

theorem groupConcat_eq (ns : List (Option String)) :
    (ns.filterMap (fun n => n) = [] ∧ groupConcat ns = none) ∨
    (ns.filterMap (fun n => n) ≠ [] ∧
      groupConcat ns = some (String.intercalate "," (ns.filterMap (fun n => n)))) := by
  unfold groupConcat
  cases h : ns.filterMap (fun n => n) with
  | nil => exact Or.inl ⟨rfl, rfl⟩
  | cons x xs => exact Or.inr ⟨by simp, rfl⟩

/-! ## A reachable store whose counters stand at 2^53 -/

theorem foldr_max_le (ids : List Nat) (n : Nat) (h : ∀ i ∈ ids, i ≤ n) :
    ids.foldr max 0 ≤ n := by
  induction ids with
  | nil => exact Nat.zero_le _
  | cons a as ih =>
    simp only [List.foldr_cons]
    exact max_le (h a (List.mem_cons_self _ _)) (ih (fun i hi => h i (List.mem_cons_of_mem _ hi)))

theorem nextRowid_of_le (n : Nat) (ids : List Nat) (h : ∀ i ∈ ids, i ≤ n) (hn : n < maxRowid) :
    nextRowid n ids = some (n + 1) := by
  have : max n (ids.foldr max 0) = n := max_eq_left (foldr_max_le ids n h)
  unfold nextRowid
  rw [this, if_pos hn]

theorem seriesStore_nextQuestionId (render : String → String) (n : Nat) (hn : n < maxRowid) :
    (seriesStore render n).nextQuestionId = some (n + 1) := by
  apply nextRowid_of_le _ _ _ hn
  intro i hi
  simp only [seriesStore, List.map_map, List.mem_map, List.mem_range, Function.comp] at hi
  obtain ⟨k, hk, e⟩ := hi
  omega

theorem seriesStore_nextTagId (render : String → String) (n : Nat) (hn : n < maxRowid) :
    (seriesStore render n).nextTagId = some (n + 1) := by
  apply nextRowid_of_le _ _ _ hn
  intro i hi
  simp only [seriesStore] at hi
  split at hi
  · simp at hi
  · simp only [List.map_cons, List.map_nil, List.mem_singleton] at hi
    omega

theorem seriesStore_uniqueNames (render : String → String) (n : Nat) :
    (seriesStore render n).UniqueNames := by
  unfold Store.UniqueNames seriesStore
  simp only
  split <;> simp

/-- Posting `seriesRequest` once more. -/
theorem seriesStore_step (render : String → String) (n : Nat) (hn : n < maxExact) :
    post render (seriesStore render n) 0 seriesRequest =
      (.success (n + 1), seriesStore render (n + 1)) := by
  have hlt : n < maxRowid := lt_trans hn maxExact_lt_maxRowid
  have hq := seriesStore_nextQuestionId render n hlt
  have hjs : jsNumber (n + 1) = n + 1 := jsNumber_of_le hn
  rw [post_of_insertable render _ 0 seriesRequest "T" "B" (n + 1) ⟨rfl, rfl⟩ hq]
  simp only [seriesRequest, tagList, tagsForEach, tagStep, hjs]
  have ht : (afterInsert render (seriesStore render n) 0 "T" "B" (n + 1)).nextTagId =
      some (n + 1) := seriesStore_nextTagId render n hlt
  have hu : (afterInsert render (seriesStore render n) 0 "T" "B" (n + 1)).UniqueNames :=
    seriesStore_uniqueNames render n
  have hone : jsNumber 1 = 1 := by decide
  by_cases h0 : n = 0
  · subst h0
    have hnew : ∀ t ∈ (afterInsert render (seriesStore render 0) 0 "T" "B" 1).tags,
        t.name ≠ some "Old" := by
      intro t ht2
      simp [afterInsert, seriesStore] at ht2
    rw [resolve_new hnew ht]
    simp [hone, insertOrIgnoreQuestionTag, afterInsert, seriesStore, newQuestion,
      List.range_succ]
  · have hmem : (⟨1, some "Old"⟩ : TagRow) ∈
        (afterInsert render (seriesStore render n) 0 "T" "B" (n + 1)).tags := by
      simp [afterInsert, seriesStore, h0]
    rw [resolve_existing hu hmem rfl ht]
    have hnot : (⟨n + 1, 1⟩ : QuestionTagRow) ∉ (seriesStore render n).question_tags := by
      simp only [seriesStore, List.mem_map, List.mem_range, QuestionTagRow.mk.injEq,
        Nat.add_right_cancel_iff, and_true, not_exists, not_and]
      intro k hk e
      omega
    simp only [hone, insertOrIgnoreQuestionTag, afterInsert]
    rw [if_neg hnot]
    simp [seriesStore, newQuestion, List.range_succ, h0]

theorem seriesStore_reachable (render : String → String) (n : Nat) (hn : n ≤ maxExact) :
    Reachable render (seriesStore render n) := by
  induction n with
  | zero => exact Reachable.empty
  | succ n ih =>
    have := Reachable.post _ 0 seriesRequest (ih (Nat.le_of_succ_le hn))
    rw [seriesStore_step render n hn] at this
    exact this

theorem jsNumber_succ_maxExact : jsNumber (maxExact + 1) = maxExact := by
  decide

/-- No JavaScript number equals `2^53 + 1`. -/
theorem jsNumber_ne_succ_maxExact (x : Nat) : jsNumber x ≠ maxExact + 1 := by
  unfold jsNumber
  split
  · omega
  · rename_i hx
    have he : ∃ e, droppedBits 64 x = e + 1 := by
      have : ¬ x < maxExact := by omega
      exact ⟨droppedBits 63 (x / 2), by simp only [droppedBits, if_neg this]⟩
    obtain ⟨e, he⟩ := he
    simp only [he]
    have hodd : (maxExact + 1) % 2 = 1 := by decide
    intro h
    have heven : ∀ q : Nat, (q * 2 ^ (e + 1)) % 2 = 0 := by
      intro q
      rw [pow_succ, ← Nat.mul_assoc]
      exact Nat.mul_mod_left _ _
    split at h
    · rw [← h, heven] at hodd
      cases hodd
    · rw [← h, heven] at hodd
      cases hodd

/-- Posting `lateRequest` to a store of the series whose next rowid is rounded
down: the id answered is `n`, the row is stored under `n + 1`, and the new tag,
stored under `n + 1`, is linked as `n`. -/
theorem lateStoreAt_post (render : String → String) (now n : Nat) (h1 : 1 < n)
    (hlt : n < maxRowid) (hjs : jsNumber (n + 1) = n) :
    post render (seriesStore render n) now lateRequest =
      (.success n, lateStoreAt render now n) := by
  have hq := seriesStore_nextQuestionId render n hlt
  have h0 : n ≠ 0 := by omega
  rw [post_of_insertable render _ now lateRequest "X" "Y" (n + 1) ⟨rfl, rfl⟩ hq]
  simp only [lateRequest, tagList, tagsForEach, tagStep, hjs]
  have ht : (afterInsert render (seriesStore render n) now "X" "Y" (n + 1)).nextTagId =
      some (n + 1) := seriesStore_nextTagId render n hlt
  have hnew : ∀ t ∈ (afterInsert render (seriesStore render n) now "X" "Y" (n + 1)).tags,
      t.name ≠ some "New" := by
    intro t ht2
    simp only [afterInsert, seriesStore, if_neg h0, List.mem_singleton] at ht2
    rw [ht2]
    decide
  rw [resolve_new hnew ht]
  have hnot : (⟨n, n⟩ : QuestionTagRow) ∉ (seriesStore render n).question_tags := by
    simp only [seriesStore, List.mem_map, List.mem_range, QuestionTagRow.mk.injEq, not_exists,
      not_and]
    intro k _ _ e
    omega
  simp only [hjs, insertOrIgnoreQuestionTag, afterInsert]
  rw [if_neg hnot]
  simp [lateStoreAt, seriesStore, newQuestion, h0]

theorem lateStoreAt_old_question (render : String → String) (now n : Nat) (h1 : 1 < n) :
    (⟨n, "T", "B", some (render "B"), 0⟩ : QuestionRow) ∈
      (lateStoreAt render now n).questions := by
  simp only [lateStoreAt, seriesStore, List.mem_append, List.mem_map, List.mem_range,
    List.mem_singleton]
  refine Or.inl ⟨n - 1, by omega, ?_⟩
  have : n - 1 + 1 = n := by omega
  rw [this]

theorem lateStoreAt_old_link (render : String → String) (now n : Nat) (h1 : 1 < n) :
    (⟨n, 1⟩ : QuestionTagRow) ∈ (lateStoreAt render now n).question_tags := by
  simp only [lateStoreAt, seriesStore, List.mem_append, List.mem_map, List.mem_range,
    List.mem_singleton]
  refine Or.inl ⟨n - 1, by omega, ?_⟩
  have : n - 1 + 1 = n := by omega
  rw [this]

theorem lateStoreAt_no_link (render : String → String) (now n : Nat) :
    ∀ a ∈ (lateStoreAt render now n).question_tags, a.question_id ≠ n + 1 ∧
      a ≠ ⟨n, n + 1⟩ := by
  intro a ha
  simp only [lateStoreAt, seriesStore, List.mem_append, List.mem_map, List.mem_range,
    List.mem_singleton] at ha
  rcases ha with ⟨k, hk, e⟩ | e
  · rw [← e]
    simp only [ne_eq, QuestionTagRow.mk.injEq, not_and]
    exact ⟨by omega, fun _ => by omega⟩
  · rw [e]
    simp only [ne_eq, QuestionTagRow.mk.injEq, not_and]
    exact ⟨by omega, fun _ => by omega⟩

theorem lateStoreAt_old_name (render : String → String) (now n : Nat) (h1 : 1 < n) :
    some "Old" ∈ selectTagNames (lateStoreAt render now n) n := by
  rw [mem_selectTagNames]
  exact ⟨⟨n, 1⟩, lateStoreAt_old_link render now n h1, rfl, ⟨1, some "Old"⟩,
    by simp [lateStoreAt], rfl, rfl⟩

theorem one_lt_maxExact : 1 < maxExact := by
  decide

theorem lateStore_post (render : String → String) (now : Nat) :
    post render (seriesStore render maxExact) now lateRequest =
      (.success maxExact, lateStore render now) :=
  lateStoreAt_post render now maxExact one_lt_maxExact maxExact_lt_maxRowid
    jsNumber_succ_maxExact

theorem lateStore_reachable (render : String → String) (now : Nat) :
    Reachable render (lateStore render now) := by
  have := Reachable.post _ now lateRequest (seriesStore_reachable render maxExact le_rfl)
  rw [lateStore_post] at this
  exact this

/-- Reading the answered id `2^53` back: the question posted before, with its
tag. -/
theorem lateStore_getById_answered (render : String → String) (now : Nat) :
    getById (lateStore render now) maxExact =
      (.found ⟨maxExact, "T", "B", some (render "B"), 0⟩
        (selectTagNames (lateStore render now) maxExact), lateStore render now) :=
  getById_of_mem (lateStore render now) ⟨maxExact, "T", "B", some (render "B"), 0⟩
    (lateStoreAt_old_question render now maxExact one_lt_maxExact)
    (lateStore_reachable render now).WF.1 le_rfl

/-- Reading the rowid `2^53 + 1` of the new question: its row under the id
`2^53`, with the tags linked to `2^53`. -/
theorem lateStore_getById_stored (render : String → String) (now : Nat) :
    getById (lateStore render now) (maxExact + 1) =
      (.found ⟨maxExact, "X", "Y", some (render "Y"), now⟩
        (selectTagNames (lateStore render now) maxExact), lateStore render now) := by
  have hmem : (⟨maxExact + 1, "X", "Y", some (render "Y"), now⟩ : QuestionRow) ∈
      (lateStore render now).questions := by
    simp [lateStore, lateStoreAt]
  obtain ⟨q2, hf⟩ := find_of_mem (lateStore render now) (maxExact + 1) _ hmem rfl
  obtain ⟨h1, h2, h3⟩ := getById_of_find _ _ q2 hf
  have : q2 = ⟨maxExact + 1, "X", "Y", some (render "Y"), now⟩ :=
    List.inj_on_of_nodup_map (lateStore_reachable render now).WF.1 h1 hmem h2
  subst this
  rw [h3]
  simp only [jsNumber_succ_maxExact]

theorem mem_listAll_ids (s : Store) (i : Nat) (h : i ∈ (listAll s).map (fun r => r.id)) :
    ∃ x, i = jsNumber x := by
  obtain ⟨row, hrow, e⟩ := List.mem_map.1 h
  unfold listAll orderByCreatedAtDesc at hrow
  rw [List.mem_insertionSort] at hrow
  obtain ⟨g, -, hg⟩ := List.mem_map.1 hrow
  exact ⟨g.1.id, by rw [← e, ← hg]⟩

theorem seriesStore_resolve_new (render : String → String) (n : Nat) (h0 : n ≠ 0)
    (hlt : n < maxRowid) :
    resolve (seriesStore render n) (.str "New") =
      (.ok (jsNumber (n + 1)),
        { seriesStore render n with
          tags := (seriesStore render n).tags ++ [⟨n + 1, some "New"⟩],
          tags_seq := n + 1 }) := by
  apply resolve_new _ (seriesStore_nextTagId render n hlt)
  intro t ht
  simp only [seriesStore, if_neg h0, List.mem_singleton] at ht
  rw [ht]
  decide

/-! ## Reading back what a post has written -/

/-- Reading back the rowid that the post handler has just assigned, when it is
a JavaScript number. -/
theorem getById_new (render : String → String) (s s' : Store) (now qId : Nat) (t b : String)
    (r : Nat) (hn : s.nextQuestionId = some r) (hr : r ≤ maxExact)
    (h : Extends qId (afterInsert render s now t b r) s') :
    getById s' r = (.found (newQuestion render now t b r) (selectTagNames s' r), s') := by
  have hf : s'.questions.find? (fun q => q.id = r) = some (newQuestion render now t b r) := by
    rw [h.1]
    simp only [afterInsert, List.find?_append]
    have : s.questions.find? (fun q => decide (q.id = r)) = none := by
      apply List.find?_eq_none.2
      intro q hq
      simp only [decide_eq_true_eq]
      intro e
      exact nextRowid_not_mem _ _ r hn (by rw [← e]; exact List.mem_map_of_mem _ hq)
    rw [this]
    simp [newQuestion]
  obtain ⟨-, -, h3⟩ := getById_of_find s' r _ hf
  rw [h3]
  have : jsNumber (newQuestion render now t b r).id = r := jsNumber_of_le hr
  rw [this]
  rfl

/-- Tag names read back after a successful post with text tag names, on a
store with the schema constraints and the data-model invariant, when every
identifier afterwards is a JavaScript number. -/
theorem tags_after_post (render : String → String) (s s' : Store) (now N : Nat)
    (t b : String) (names : List String) (hw : s.WF) (hrefs : RefsExist s)
    (hp : post render s now ⟨.str t, .str b, .arr (names.map JsVal.str)⟩ = (.success N, s'))
    (hx : s'.ExactIds) :
    s'.WF ∧
      getById s' N = (.found ⟨N, t, b, some (render b), now⟩ (selectTagNames s' N), s') ∧
      (∀ x, x ∈ selectTagNames s' N ↔ ∃ n ∈ names, x = some n) ∧
      (∀ n ∈ names, ∃ r ∈ s'.tags, r.name = some n ∧
        (⟨N, r.id⟩ : QuestionTagRow) ∈ s'.question_tags) ∧
      (∀ a ∈ s'.question_tags, a.question_id = N →
        ∃ n ∈ names, ∃ r ∈ s'.tags, r.name = some n ∧ a.tag_id = r.id) := by
  obtain ⟨hn, hw', hext, hin, hall⟩ := post_text render s s' now N t b names hw hp hx
  have hN : N ≤ maxExact := by
    apply hx.1 (newQuestion render now t b N)
    rw [hext.1]
    simp [afterInsert]
  have hrows : ∀ a ∈ s'.question_tags, a.question_id = N →
      ∃ n ∈ names, ∃ r ∈ s'.tags, r.name = some n ∧ a = ⟨N, r.id⟩ := by
    intro a ha hq
    rcases hall a ha with h | h
    · exact absurd hq (hrefs.fresh hn a h)
    · exact h
  refine ⟨hw', getById_new render s s' now N t b N hn hN hext, ?_, hin, ?_⟩
  · intro x
    rw [mem_selectTagNames]
    constructor
    · rintro ⟨a, ha, hq, r, hr, hid, hx⟩
      obtain ⟨n, hn, r2, hr2, e2, ha2⟩ := hrows a ha hq
      refine ⟨n, hn, ?_⟩
      have : r = r2 := tag_eq_of_id_eq hw' hr hr2 (by rw [hid, ha2])
      rw [← hx, this, e2]
    · rintro ⟨n, hn, rfl⟩
      obtain ⟨r, hr, e, hm⟩ := hin n hn
      exact ⟨_, hm, rfl, r, hr, rfl, e⟩
  · intro a ha hq
    obtain ⟨n, hn, r, hr, e, ha2⟩ := hrows a ha hq
    exact ⟨n, hn, r, hr, e, by rw [ha2]⟩

/-! ## Claims -/

/-- C1 (counterexample): the store reached from the empty one by 2^53 creates, each with
title "T", body "B" and tag "Old", satisfies the uniqueness constraints.  The next
create, of title "X", body "Y" and tag "New", succeeds and returns N = 2^53, the
JavaScript number nearest to the rowid 2^53 + 1 of the new row.  getById N succeeds, but
it answers the question "T" created before, and its tags field holds "Old", which is not
in tagNames. -/
theorem create_reads_back_other_question :
    Reachable (fun b => b) (seriesStore (fun b => b) maxExact) ∧
    (seriesStore (fun b => b) maxExact).WF ∧
    post (fun b => b) (seriesStore (fun b => b) maxExact) 5 lateRequest =
      (.success maxExact, lateStore (fun b => b) 5) ∧
    ∃ tags,
      getById (lateStore (fun b => b) 5) maxExact =
        (.found ⟨maxExact, "T", "B", some "B", 0⟩ tags, lateStore (fun b => b) 5) ∧
      some "Old" ∈ tags :=
  ⟨seriesStore_reachable _ _ le_rfl, (seriesStore_reachable _ _ le_rfl).WF,
    lateStore_post _ _, _, lateStore_getById_answered _ _,
    lateStoreAt_old_name _ _ _ one_lt_maxExact⟩

/-- C1 (amended): for every store state that satisfies the uniqueness constraints of the
schema and the data-model invariant that every association refers to an existing
question, and for every text title, text body and list tagNames of text tag names: if
create succeeds, returns the id N and leaves no question or tag identifier above 2^53,
then getById N succeeds, answers the question created, and the set of names in its tags
field is the set of names in tagNames. -/
theorem create_then_getById_tag_set (render : String → String) (s s' : Store) (now N : Nat)
    (title body : String) (tagNames : List String) (hw : s.WF) (hrefs : RefsExist s)
    (hp : post render s now ⟨.str title, .str body, .arr (tagNames.map JsVal.str)⟩ =
      (.success N, s'))
    (hx : s'.ExactIds) :
    ∃ tags, getById s' N = (.found ⟨N, title, body, some (render body), now⟩ tags, s') ∧
      ∀ x, x ∈ tags ↔ ∃ n ∈ tagNames, x = some n := by
  obtain ⟨-, hg, hset, -, -⟩ :=
    tags_after_post render s s' now N title body tagNames hw hrefs hp hx
  exact ⟨_, hg, hset⟩

theorem create_then_getById_tag_set_witness :
    (Store.empty.WF ∧ RefsExist Store.empty ∧
      post (fun b => b) Store.empty 5
          ⟨.str "Is evolution supported in the Bible?",
            .str "Bible and evolution discussion.",
            .arr (["Bible", "Theology", "Science", "Evolution"].map JsVal.str)⟩ =
        (.success 1,
          { questions := [⟨1, "Is evolution supported in the Bible?",
              "Bible and evolution discussion.", some "Bible and evolution discussion.", 5⟩],
            tags := [⟨1, some "Bible"⟩, ⟨2, some "Theology"⟩, ⟨3, some "Science"⟩,
              ⟨4, some "Evolution"⟩],
            question_tags := [⟨1, 1⟩, ⟨1, 2⟩, ⟨1, 3⟩, ⟨1, 4⟩],
            questions_seq := 1, tags_seq := 4 }) ∧
      Store.ExactIds
        { questions := [⟨1, "Is evolution supported in the Bible?",
              "Bible and evolution discussion.", some "Bible and evolution discussion.", 5⟩],
          tags := [⟨1, some "Bible"⟩, ⟨2, some "Theology"⟩, ⟨3, some "Science"⟩,
            ⟨4, some "Evolution"⟩],
          question_tags := [⟨1, 1⟩, ⟨1, 2⟩, ⟨1, 3⟩, ⟨1, 4⟩],
          questions_seq := 1, tags_seq := 4 }) ∧
    ∃ tags,
      getById
          { questions := [⟨1, "Is evolution supported in the Bible?",
              "Bible and evolution discussion.", some "Bible and evolution discussion.", 5⟩],
            tags := [⟨1, some "Bible"⟩, ⟨2, some "Theology"⟩, ⟨3, some "Science"⟩,
              ⟨4, some "Evolution"⟩],
            question_tags := [⟨1, 1⟩, ⟨1, 2⟩, ⟨1, 3⟩, ⟨1, 4⟩],
            questions_seq := 1, tags_seq := 4 } 1 =
        (.found ⟨1, "Is evolution supported in the Bible?",
            "Bible and evolution discussion.", some "Bible and evolution discussion.", 5⟩ tags,
          { questions := [⟨1, "Is evolution supported in the Bible?",
              "Bible and evolution discussion.", some "Bible and evolution discussion.", 5⟩],
            tags := [⟨1, some "Bible"⟩, ⟨2, some "Theology"⟩, ⟨3, some "Science"⟩,
              ⟨4, some "Evolution"⟩],
            question_tags := [⟨1, 1⟩, ⟨1, 2⟩, ⟨1, 3⟩, ⟨1, 4⟩],
            questions_seq := 1, tags_seq := 4 }) ∧
      ∀ x, x ∈ tags ↔ ∃ n ∈ ["Bible", "Theology", "Science", "Evolution"], x = some n :=
  ⟨⟨by decide, by decide, by decide, by decide⟩,
    create_then_getById_tag_set (fun b => b) Store.empty _ 5 1
      "Is evolution supported in the Bible?" "Bible and evolution discussion."
      ["Bible", "Theology", "Science", "Evolution"] (by decide) (by decide) (by decide)
      (by decide)⟩

/-- C2 (counterexample): a request whose second tag entry is null is answered with the
500 error, yet the question row, the tag "Bible" and its association stay in the store,
together with the NULL-named tag row of the failing entry. -/
theorem post_failure_is_not_rolled_back :
    post (fun b => b) Store.empty 0 ⟨.str "T", .str "B", .arr [.str "Bible", .null]⟩ =
      (.serverError,
        { questions := [⟨1, "T", "B", some "B", 0⟩],
          tags := [⟨1, some "Bible"⟩, ⟨2, none⟩],
          question_tags := [⟨1, 1⟩],
          questions_seq := 1, tags_seq := 2 }) := by
  decide

/-- C2 (amended): create is not atomic.  When it reports the 500 failure, the store is
unchanged only if the failure is raised before or by the question insert (the body is
not text, the title does not bind to exactly one value other than NULL, or the questions
counter is exhausted).  Otherwise the inserted question row stays: when tags is not a
list the store is the one right after the insert, and when the loop fails at an entry
the store is the one reached at that entry, with every row written for the entries
before it. -/
theorem post_failure_state (render : String → String) (s : Store) (now : Nat)
    (req : PostRequest) (h : (post render s now req).1 = .serverError) :
    ((¬ ∃ t b r, Insertable req t b ∧ s.nextQuestionId = some r) ∧
      (post render s now req).2 = s) ∨
    (∃ t b r, Insertable req t b ∧ s.nextQuestionId = some r ∧
      (post render s now req).2.questions = s.questions ++ [⟨r, t, b, some (render b), now⟩] ∧
      (post render s now req).2 ≠ s ∧
      ((tagList req.tags = none ∧ (post render s now req).2 = afterInsert render s now t b r) ∨
        ∃ done v rest sd e, tagList req.tags = some (done ++ v :: rest) ∧
          tagsForEach (jsNumber r) (afterInsert render s now t b r) done = (.ok (), sd) ∧
          tagStep (jsNumber r) sd v = (.error e, (post render s now req).2))) := by
  by_cases hi : ∃ t b r, Insertable req t b ∧ s.nextQuestionId = some r
  · right
    obtain ⟨t, b, r, hi, hn⟩ := hi
    have hext := post_extends render s now req t b r hi hn
    refine ⟨t, b, r, hi, hn, hext.1, afterInsert_ne render s now t b r _ hext.1, ?_⟩
    rw [post_of_insertable render s now req t b r hi hn] at h ⊢
    cases htl : tagList req.tags with
    | none => exact Or.inl ⟨rfl, rfl⟩
    | some ts =>
      right
      simp only [htl] at h ⊢
      rcases hr : tagsForEach (jsNumber r) (afterInsert render s now t b r) ts with ⟨res, s2⟩
      rw [hr] at h
      cases res with
      | ok u => simp at h
      | error e =>
        obtain ⟨done, v, rest, sd, h1, h2, h3⟩ := tagsForEach_error _ _ _ _ _ hr
        exact ⟨done, v, rest, sd, e, by rw [h1], h2, h3⟩
  · exact Or.inl ⟨hi, by rw [post_of_not_insertable render s now req hi]⟩

theorem post_failure_state_witness :
    (post (fun b => b) Store.empty 0 ⟨.str "T", .str "B", .null⟩).1 = .serverError ∧
    (((¬ ∃ t b r, Insertable ⟨.str "T", .str "B", .null⟩ t b ∧
          Store.empty.nextQuestionId = some r) ∧
        (post (fun b => b) Store.empty 0 ⟨.str "T", .str "B", .null⟩).2 = Store.empty) ∨
    (∃ t b r, Insertable ⟨.str "T", .str "B", .null⟩ t b ∧
      Store.empty.nextQuestionId = some r ∧
      (post (fun b => b) Store.empty 0 ⟨.str "T", .str "B", .null⟩).2.questions =
        Store.empty.questions ++ [⟨r, t, b, some ((fun b => b) b), 0⟩] ∧
      (post (fun b => b) Store.empty 0 ⟨.str "T", .str "B", .null⟩).2 ≠ Store.empty ∧
      ((tagList (PostRequest.mk (.str "T") (.str "B") .null).tags = none ∧
          (post (fun b => b) Store.empty 0 ⟨.str "T", .str "B", .null⟩).2 =
            afterInsert (fun b => b) Store.empty 0 t b r) ∨
        ∃ done v rest sd e,
          tagList (PostRequest.mk (.str "T") (.str "B") .null).tags =
            some (done ++ v :: rest) ∧
          tagsForEach (jsNumber r) (afterInsert (fun b => b) Store.empty 0 t b r) done =
            (.ok (), sd) ∧
          tagStep (jsNumber r) sd v =
            (.error e, (post (fun b => b) Store.empty 0 ⟨.str "T", .str "B", .null⟩).2)))) :=
  ⟨by decide,
    post_failure_state (fun b => b) Store.empty 0 ⟨.str "T", .str "B", .null⟩ (by decide)⟩

/-- C4 (counterexample): in the store reached from the empty one by 2^53 creates with the
tag "Old", no two tag rows share a name and no tag is named "New".  Resolving "New" adds
the one row (2^53 + 1, "New") but returns 2^53, the JavaScript number nearest to the new
rowid, which is not the identifier of that row. -/
theorem resolve_returns_rounded_id :
    Reachable (fun b => b) (seriesStore (fun b => b) maxExact) ∧
    (seriesStore (fun b => b) maxExact).UniqueNames ∧
    (∀ t ∈ (seriesStore (fun b => b) maxExact).tags, t.name ≠ some "New") ∧
    (resolve (seriesStore (fun b => b) maxExact) (.str "New")).1 = .ok maxExact ∧
    (resolve (seriesStore (fun b => b) maxExact) (.str "New")).2.tags =
      (seriesStore (fun b => b) maxExact).tags ++ [⟨maxExact + 1, some "New"⟩] := by
  have h := seriesStore_resolve_new (fun b => b) maxExact (by decide) maxExact_lt_maxRowid
  refine ⟨seriesStore_reachable _ _ le_rfl, seriesStore_uniqueNames _ _, ?_, ?_, ?_⟩
  · intro t ht
    have h0 : maxExact ≠ 0 := by decide
    simp only [seriesStore, if_neg h0, List.mem_singleton] at ht
    rw [ht]
    decide
  · rw [h, jsNumber_succ_maxExact]
  · rw [h]

/-- C4 (amended): tag resolution keeps tag names unique.  From a store in which no two
tag rows share a name and whose tags counter and tag identifiers are below 2^53,
resolving a text name returns the identifier of the tag that carries it and leaves the
tags table unchanged when there is one, and otherwise appends exactly one row with that
name under a new identifier and returns it; the store afterwards still has unique names
and a second resolution of the same name returns the same identifier.  In every store
reached from the empty one by seeding and create calls a name belongs to at most one
tag identifier. -/
theorem resolve_keeps_names_unique (s : Store) (n : String) (hu : s.UniqueNames)
    (hs : s.tags_seq < maxExact) (hi : ∀ t ∈ s.tags, t.id < maxExact) :
    (∀ t ∈ s.tags, t.name = some n →
      (resolve s (.str n)).1 = .ok t.id ∧ (resolve s (.str n)).2.tags = s.tags) ∧
    ((∀ t ∈ s.tags, t.name ≠ some n) →
      ∃ i, (∀ t ∈ s.tags, t.id ≠ i) ∧ (resolve s (.str n)).1 = .ok i ∧
        (resolve s (.str n)).2.tags = s.tags ++ [⟨i, some n⟩]) ∧
    (resolve s (.str n)).2.UniqueNames ∧
    (∃ i, (resolve s (.str n)).1 = .ok i ∧
      (resolve (resolve s (.str n)).2 (.str n)).1 = .ok i ∧
      (resolve (resolve s (.str n)).2 (.str n)).2.tags = (resolve s (.str n)).2.tags) ∧
    (∀ (render : String → String) (r : Store), Reachable render r →
      ∀ t1 ∈ r.tags, ∀ t2 ∈ r.tags, ∀ m, t1.name = some m → t2.name = some m →
        t1.id = t2.id) := by
  obtain ⟨r, hn, hr⟩ := nextRowid_isSome s.tags_seq (s.tags.map (fun t => t.id)) maxExact
    (le_of_lt maxExact_lt_maxRowid) hs (by
      intro i hi2
      obtain ⟨t, ht, e⟩ := List.mem_map.1 hi2
      rw [← e]
      exact hi t ht)
  have hn : s.nextTagId = some r := hn
  have hex : ∀ t ∈ s.tags, t.name = some n →
      resolve s (.str n) = (.ok t.id, { s with tags_seq := r }) := by
    intro t ht e
    rw [resolve_existing hu ht e hn, jsNumber_of_le (le_of_lt (hi t ht))]
  have hnew : (∀ t ∈ s.tags, t.name ≠ some n) →
      resolve s (.str n) = (.ok r, { s with tags := s.tags ++ [⟨r, some n⟩], tags_seq := r }) := by
    intro h
    rw [resolve_new h hn, jsNumber_of_le hr]
  have hu1 : (resolve s (.str n)).2.UniqueNames := by
    by_cases h : ∃ t ∈ s.tags, t.name = some n
    · obtain ⟨t, ht, e⟩ := h
      rw [hex t ht e]
      exact hu
    · have h2 : ∀ t ∈ s.tags, t.name ≠ some n := fun t ht e => h ⟨t, ht, e⟩
      rw [hnew h2]
      unfold Store.UniqueNames
      simp only
      rw [List.pairwise_append]
      refine ⟨hu, List.pairwise_singleton _ _, ?_⟩
      intro a ha b hb
      rw [List.mem_singleton] at hb
      subst hb
      exact Or.inr (h2 a ha)
  have hsame : ∃ t ∈ (resolve s (.str n)).2.tags, t.name = some n ∧
      (resolve s (.str n)).1 = .ok t.id ∧ t.id ≤ maxExact ∧
      (resolve s (.str n)).2.tags_seq = r ∧
      ∀ x ∈ (resolve s (.str n)).2.tags, x.id ≤ maxExact := by
    by_cases h : ∃ t ∈ s.tags, t.name = some n
    · obtain ⟨t, ht, e⟩ := h
      rw [hex t ht e]
      exact ⟨t, ht, e, rfl, le_of_lt (hi t ht), rfl, fun x hx => le_of_lt (hi x hx)⟩
    · have h2 : ∀ t ∈ s.tags, t.name ≠ some n := fun t ht e => h ⟨t, ht, e⟩
      rw [hnew h2]
      refine ⟨⟨r, some n⟩, by simp, rfl, rfl, hr, rfl, ?_⟩
      intro x hx
      simp only [List.mem_append, List.mem_singleton] at hx
      rcases hx with hx | hx
      · exact le_of_lt (hi x hx)
      · rw [hx]
        exact hr
  refine ⟨fun t ht e => by rw [hex t ht e]; exact ⟨rfl, rfl⟩, ?_, hu1, ?_, ?_⟩
  · intro h
    refine ⟨r, ?_, by rw [hnew h], by rw [hnew h]⟩
    intro t ht e
    exact nextRowid_not_mem _ _ r hn (by rw [← e]; exact List.mem_map_of_mem _ ht)
  · obtain ⟨t, ht, e, h1, hle, hseq, hall⟩ := hsame
    obtain ⟨r2, hn2, -⟩ := nextRowid_isSome (resolve s (.str n)).2.tags_seq
      ((resolve s (.str n)).2.tags.map (fun t => t.id)) (maxExact + 1)
      (Nat.succ_le_of_lt maxExact_lt_maxRowid) (by rw [hseq]; omega) (by
        intro i hi2
        obtain ⟨x, hx, e2⟩ := List.mem_map.1 hi2
        rw [← e2]
        exact Nat.lt_succ_of_le (hall x hx))
    have hn2 : (resolve s (.str n)).2.nextTagId = some r2 := hn2
    refine ⟨t.id, h1, ?_⟩
    rw [resolve_existing hu1 ht e hn2, jsNumber_of_le hle]
    exact ⟨rfl, rfl⟩
  · intro render r hr t1 h1 t2 h2 m e1 e2
    rw [unique_name_eq hr.WF.2.2.1 h1 h2 e1 e2]

theorem resolve_keeps_names_unique_witness :
    ((post (fun b => b) Store.empty 0 ⟨.str "T", .str "B", .arr [.str "Bible"]⟩).2.UniqueNames ∧
      (post (fun b => b) Store.empty 0 ⟨.str "T", .str "B", .arr [.str "Bible"]⟩).2.tags_seq <
        maxExact ∧
      ∀ t ∈ (post (fun b => b) Store.empty 0 ⟨.str "T", .str "B", .arr [.str "Bible"]⟩).2.tags,
        t.id < maxExact) ∧
    ((∀ t ∈ (post (fun b => b) Store.empty 0 ⟨.str "T", .str "B", .arr [.str "Bible"]⟩).2.tags,
        t.name = some "Bible" →
      (resolve (post (fun b => b) Store.empty 0 ⟨.str "T", .str "B", .arr [.str "Bible"]⟩).2
          (.str "Bible")).1 = .ok t.id ∧
        (resolve (post (fun b => b) Store.empty 0 ⟨.str "T", .str "B", .arr [.str "Bible"]⟩).2
          (.str "Bible")).2.tags =
          (post (fun b => b) Store.empty 0 ⟨.str "T", .str "B", .arr [.str "Bible"]⟩).2.tags)) :=
  ⟨⟨by decide, by decide, by decide⟩,
    (resolve_keeps_names_unique
      (post (fun b => b) Store.empty 0 ⟨.str "T", .str "B", .arr [.str "Bible"]⟩).2 "Bible"
      (by decide) (by decide) (by decide)).1⟩

/-- C5 (counterexample): from the store reached by 2^53 creates with the tag "Old", the
create of title "X", body "Y" and tag "New" succeeds with N = 2^53 and stores the tag
"New" under 2^53 + 1, but it writes the association (N, 2^53): question_tags holds no
row (N, t) for the identifier t = 2^53 + 1 of "New", and it holds the row (N, 1) of the
tag "Old", which is not in tagNames. -/
theorem create_links_other_tag :
    (seriesStore (fun b => b) maxExact).WF ∧
    post (fun b => b) (seriesStore (fun b => b) maxExact) 5 lateRequest =
      (.success maxExact, lateStore (fun b => b) 5) ∧
    (⟨maxExact + 1, some "New"⟩ : TagRow) ∈ (lateStore (fun b => b) 5).tags ∧
    (⟨maxExact, maxExact + 1⟩ : QuestionTagRow) ∉ (lateStore (fun b => b) 5).question_tags ∧
    (⟨1, some "Old"⟩ : TagRow) ∈ (lateStore (fun b => b) 5).tags ∧
    (⟨maxExact, 1⟩ : QuestionTagRow) ∈ (lateStore (fun b => b) 5).question_tags :=
  ⟨(seriesStore_reachable _ _ le_rfl).WF, lateStore_post _ _,
    by simp [lateStore, lateStoreAt],
    fun hm => (lateStoreAt_no_link _ _ _ _ hm).2 rfl,
    by simp [lateStore, lateStoreAt],
    lateStoreAt_old_link _ _ _ one_lt_maxExact⟩

/-- C5 (amended): for every store state that satisfies the uniqueness constraints of the
schema and the data-model invariant that every association refers to an existing
question, and every successful create with text title, body and tag names that returns
N and leaves no question or tag identifier above 2^53: the question_tags table
afterwards holds exactly one row (N, t) for each name of tagNames, t being the
identifier of the tag of that name, and no other row for N, however often a name is
repeated; the tags field of getById N lists each distinct name once. -/
theorem create_links_each_name_once (render : String → String) (s s' : Store) (now N : Nat)
    (title body : String) (tagNames : List String) (hw : s.WF) (hrefs : RefsExist s)
    (hp : post render s now ⟨.str title, .str body, .arr (tagNames.map JsVal.str)⟩ =
      (.success N, s'))
    (hx : s'.ExactIds) :
    s'.WF ∧
    (∀ n ∈ tagNames, ∃ r ∈ s'.tags, r.name = some n ∧
      s'.question_tags.count ⟨N, r.id⟩ = 1) ∧
    (∀ a ∈ s'.question_tags, a.question_id = N →
      ∃ n ∈ tagNames, ∃ r ∈ s'.tags, r.name = some n ∧ a.tag_id = r.id) ∧
    ∃ q tags, getById s' N = (.found q tags, s') ∧ tags.Nodup ∧
      tags.Perm (tagNames.dedup.map some) := by
  obtain ⟨hw', hg, hset, hin, hall⟩ :=
    tags_after_post render s s' now N title body tagNames hw hrefs hp hx
  have hnd : (selectTagNames s' N).Nodup := by
    apply selectTagNames_nodup s' _ hw'
    intro x hx
    obtain ⟨n, -, e⟩ := (hset x).1 hx
    rw [e]
    exact Option.some_ne_none n
  refine ⟨hw', ?_, hall, _, _, hg, hnd, ?_⟩
  · intro n hn
    obtain ⟨r, hr, e, hm⟩ := hin n hn
    exact ⟨r, hr, e, List.count_eq_one_of_mem hw'.2.2.2 hm⟩
  · rw [List.perm_ext_iff_of_nodup hnd
      ((List.nodup_dedup tagNames).map (Option.some_injective String))]
    intro x
    rw [hset x]
    simp only [List.mem_map, List.mem_dedup]
    constructor
    · rintro ⟨n, hn, e⟩
      exact ⟨n, hn, e.symm⟩
    · rintro ⟨n, hn, e⟩
      exact ⟨n, hn, e.symm⟩

theorem create_links_each_name_once_witness :
    (Store.empty.WF ∧ RefsExist Store.empty ∧
      post (fun b => b) Store.empty 5
          ⟨.str "T", .str "B", .arr (["Bible", "Bible"].map JsVal.str)⟩ =
        (.success 1,
          { questions := [⟨1, "T", "B", some "B", 5⟩], tags := [⟨1, some "Bible"⟩],
            question_tags := [⟨1, 1⟩], questions_seq := 1, tags_seq := 2 }) ∧
      Store.ExactIds
        { questions := [⟨1, "T", "B", some "B", 5⟩], tags := [⟨1, some "Bible"⟩],
          question_tags := [⟨1, 1⟩], questions_seq := 1, tags_seq := 2 }) ∧
    ∃ q tags,
      getById
          { questions := [⟨1, "T", "B", some "B", 5⟩], tags := [⟨1, some "Bible"⟩],
            question_tags := [⟨1, 1⟩], questions_seq := 1, tags_seq := 2 } 1 =
        (.found q tags,
          { questions := [⟨1, "T", "B", some "B", 5⟩], tags := [⟨1, some "Bible"⟩],
            question_tags := [⟨1, 1⟩], questions_seq := 1, tags_seq := 2 }) ∧
      tags.Nodup ∧ tags.Perm ((["Bible", "Bible"] : List String).dedup.map some) :=
  ⟨⟨by decide, by decide, by decide, by decide⟩,
    (create_links_each_name_once (fun b => b) Store.empty _ 5 1 "T" "B" ["Bible", "Bible"]
      (by decide) (by decide) (by decide) (by decide)).2.2.2⟩

/-- C6 (counterexample): create with the empty string as title and as body is not
rejected: it answers success with id 1 and persists the question row. -/
theorem post_accepts_empty_title_and_body :
    post (fun b => b) Store.empty 0 ⟨.str "", .str "", .undefined⟩ =
      (.success 1,
        { questions := [⟨1, "", "", some "", 0⟩], tags := [], question_tags := [],
          questions_seq := 1, tags_seq := 0 }) := by
  decide

/-- C6 (amended): create checks presence, not emptiness.  It fails with the 500 error and
persists nothing whenever title or body is a missing field or null, and whenever the
questions counter is exhausted; it persists a question only when the body is text and
the title binds to exactly one value other than NULL, and for such a request, the empty
string included, it does persist the question row under the next rowid. -/
theorem post_requires_present_title_and_body (render : String → String) (s : Store)
    (now : Nat) (req : PostRequest) :
    ((req.title = .undefined ∨ req.title = .null ∨ req.body = .undefined ∨ req.body = .null ∨
        s.nextQuestionId = none) →
      post render s now req = (.serverError, s)) ∧
    ((post render s now req).2.questions ≠ s.questions → ∃ t b, Insertable req t b) ∧
    (∀ t b r, Insertable req t b → s.nextQuestionId = some r →
      (post render s now req).2.questions =
        s.questions ++ [⟨r, t, b, some (render b), now⟩]) := by
  refine ⟨?_, ?_, ?_⟩
  · intro h
    apply post_of_not_insertable
    rintro ⟨t, b, r, ⟨hb, ht⟩, hn⟩
    rcases h with h | h | h | h | h
    · rw [h] at ht
      cases ht
    · rw [h] at ht
      cases ht
    · rw [h] at hb
      cases hb
    · rw [h] at hb
      cases hb
    · rw [h] at hn
      cases hn
  · intro h
    by_contra hi
    rw [post_of_not_insertable render s now req
      (fun ⟨t, b, _, h1, _⟩ => hi ⟨t, b, h1⟩)] at h
    exact h rfl
  · intro t b r hi hn
    exact (post_extends render s now req t b r hi hn).1

theorem post_requires_present_title_and_body_witness :
    ((JsVal.undefined = JsVal.undefined ∨ JsVal.undefined = JsVal.null ∨
        JsVal.str "B" = JsVal.undefined ∨ JsVal.str "B" = JsVal.null ∨
        Store.empty.nextQuestionId = none) ∧
      post (fun b => b) Store.empty 0 ⟨.undefined, .str "B", .undefined⟩ =
        (.serverError, Store.empty)) ∧
    ((Insertable ⟨.str "", .str "", .undefined⟩ "" "" ∧ Store.empty.nextQuestionId = some 1) ∧
      (post (fun b => b) Store.empty 0 ⟨.str "", .str "", .undefined⟩).2.questions =
        Store.empty.questions ++ [⟨1, "", "", some ((fun b => b) ""), 0⟩]) :=
  ⟨⟨Or.inl rfl,
      (post_requires_present_title_and_body (fun b => b) Store.empty 0
        ⟨.undefined, .str "B", .undefined⟩).1 (Or.inl rfl)⟩,
    ⟨⟨⟨rfl, rfl⟩, by decide⟩,
      (post_requires_present_title_and_body (fun b => b) Store.empty 0
        ⟨.str "", .str "", .undefined⟩).2.2 "" "" 1 ⟨rfl, rfl⟩ (by decide)⟩⟩

/-- C7 (counterexample): two questions created one after the other within the same
second are listed oldest first: question 2, created after question 1 with an equal
timestamp, comes after it. -/
theorem listAll_same_second_oldest_first :
    (listAll
      (post (fun b => b)
        (post (fun b => b) Store.empty 100 ⟨.str "A", .str "a", .undefined⟩).2
        100 ⟨.str "B", .str "b", .undefined⟩).2).map (fun r => (r.id, r.created_at)) =
      [(1, 100), (2, 100)] := by
  decide

/-- C7 (amended): listAll returns the questions ordered by created_at descending: in
every store with unique question identifiers the result has one row per question, no
row precedes a row with a later created_at, and if question B has a later created_at
than question A, the row of B appears before the row of A. -/
theorem listAll_newest_first (s : Store) (hid : (s.questions.map (fun q => q.id)).Nodup) :
    (listAll s).length = s.questions.length ∧
    (listAll s).Pairwise (fun a b => a.created_at ≥ b.created_at) ∧
    ∀ A ∈ s.questions, ∀ B ∈ s.questions, A.created_at < B.created_at →
      ∃ ta tb,
        [(⟨jsNumber B.id, B.title, B.body, B.html, B.created_at, tb⟩ : ListRow),
          ⟨jsNumber A.id, A.title, A.body, A.html, A.created_at, ta⟩].Sublist (listAll s) := by
  have hp := listAll_perm s hid
  refine ⟨by rw [hp.length_eq, List.length_map], listAll_sorted s, ?_⟩
  intro A hA B hB hlt
  have hmA : toListRow (A, joinNames s A) ∈ listAll s :=
    hp.mem_iff.2 (List.mem_map.2 ⟨A, hA, rfl⟩)
  have hmB : toListRow (B, joinNames s B) ∈ listAll s :=
    hp.mem_iff.2 (List.mem_map.2 ⟨B, hB, rfl⟩)
  exact ⟨_, _, sublist_of_sorted_desc (listAll s) (listAll_sorted s) _ _ hmA hmB hlt⟩

theorem listAll_newest_first_witness :
    ((post (fun b => b)
        (post (fun b => b) Store.empty 100 ⟨.str "A", .str "a", .undefined⟩).2
        101 ⟨.str "B", .str "b", .undefined⟩).2.questions.map (fun q => q.id)).Nodup ∧
    (listAll (post (fun b => b)
        (post (fun b => b) Store.empty 100 ⟨.str "A", .str "a", .undefined⟩).2
        101 ⟨.str "B", .str "b", .undefined⟩).2).length =
      (post (fun b => b)
        (post (fun b => b) Store.empty 100 ⟨.str "A", .str "a", .undefined⟩).2
        101 ⟨.str "B", .str "b", .undefined⟩).2.questions.length ∧
    (listAll (post (fun b => b)
        (post (fun b => b) Store.empty 100 ⟨.str "A", .str "a", .undefined⟩).2
        101 ⟨.str "B", .str "b", .undefined⟩).2).map (fun r => (r.id, r.created_at)) =
      [(2, 101), (1, 100)] :=
  ⟨by decide,
    (listAll_newest_first
      (post (fun b => b)
        (post (fun b => b) Store.empty 100 ⟨.str "A", .str "a", .undefined⟩).2
        101 ⟨.str "B", .str "b", .undefined⟩).2 (by decide)).1,
    by decide⟩

/-- C8 (counterexample): the store reached by 2^53 creates followed by one more holds
the questions 1 .. 2^53 + 1 under unique identifiers, but no row of the result carries
the id 2^53 + 1, which is not a JavaScript number: the ids of the result are not a
permutation of the ids of the questions table. -/
theorem listAll_drops_an_id :
    Reachable (fun b => b) (lateStore (fun b => b) 5) ∧
    ((lateStore (fun b => b) 5).questions.map (fun q => q.id)).Nodup ∧
    (maxExact + 1) ∈ (lateStore (fun b => b) 5).questions.map (fun q => q.id) ∧
    (maxExact + 1) ∉ (listAll (lateStore (fun b => b) 5)).map (fun r => r.id) ∧
    ¬ ((listAll (lateStore (fun b => b) 5)).map (fun r => r.id)).Perm
        ((lateStore (fun b => b) 5).questions.map (fun q => q.id)) := by
  have hmem : (maxExact + 1) ∈ (lateStore (fun b => b) 5).questions.map (fun q => q.id) := by
    simp [lateStore, lateStoreAt]
  have hnot : (maxExact + 1) ∉ (listAll (lateStore (fun b => b) 5)).map (fun r => r.id) := by
    intro h
    obtain ⟨x, hx⟩ := mem_listAll_ids _ _ h
    exact jsNumber_ne_succ_maxExact x hx.symm
  exact ⟨lateStore_reachable _ _, (lateStore_reachable _ _).WF.1, hmem, hnot,
    fun hp => hnot (hp.mem_iff.2 hmem)⟩

/-- C8 (amended): listAll returns exactly one row per question.  In every store whose
question identifiers are unique and at most 2^53, the ids of the result are a
permutation of the ids of the questions table, whatever the number of tags of each
question, and every row carries the columns of its question and a tags field built from
exactly the names of the tags associated with that question: NULL when there is none,
otherwise those names, in some order, joined by commas. -/
theorem listAll_one_row_per_question (s : Store)
    (hid : (s.questions.map (fun q => q.id)).Nodup)
    (hx : ∀ q ∈ s.questions, q.id ≤ maxExact) :
    ((listAll s).map (fun r => r.id)).Perm (s.questions.map (fun q => q.id)) ∧
    (listAll s).length = s.questions.length ∧
    ∀ row ∈ listAll s, ∃ q ∈ s.questions,
      row.id = q.id ∧ row.title = q.title ∧ row.body = q.body ∧ row.html = q.html ∧
      row.created_at = q.created_at ∧
      ∃ names : List String,
        names.Perm
          ((s.question_tags.filter (fun a => a.question_id = q.id)).flatMap (fun a =>
            (s.tags.filter (fun t => t.id = a.tag_id)).filterMap (fun t => t.name))) ∧
        ((names = [] ∧ row.tags = none) ∨
          (names ≠ [] ∧ row.tags = some (String.intercalate "," names))) := by
  have hp := listAll_perm s hid
  refine ⟨?_, ?_, ?_⟩
  · have h1 := hp.map (fun r => r.id)
    rw [List.map_map] at h1
    have h2 : s.questions.map ((fun r : ListRow => r.id) ∘ fun q => toListRow (q, joinNames s q)) =
        s.questions.map (fun q => q.id) := by
      apply List.map_congr_left
      intro q hq
      exact jsNumber_of_le (hx q hq)
    rw [h2] at h1
    exact h1
  · rw [hp.length_eq, List.length_map]
  · intro row hrow
    obtain ⟨q, hq, e⟩ := List.mem_map.1 (hp.mem_iff.1 hrow)
    refine ⟨q, hq, ?_⟩
    rw [← e]
    exact ⟨jsNumber_of_le (hx q hq), rfl, rfl, rfl, rfl, _, joinNames_perm s q,
      groupConcat_eq (joinNames s q)⟩

theorem listAll_one_row_per_question_witness :
    (((post (fun b => b)
          (post (fun b => b) Store.empty 7 ⟨.str "A", .str "a", .arr [.str "x", .str "y"]⟩).2
          9 ⟨.str "B", .str "b", .undefined⟩).2.questions.map (fun q => q.id)).Nodup ∧
      ∀ q ∈ (post (fun b => b)
          (post (fun b => b) Store.empty 7 ⟨.str "A", .str "a", .arr [.str "x", .str "y"]⟩).2
          9 ⟨.str "B", .str "b", .undefined⟩).2.questions, q.id ≤ maxExact) ∧
    ((listAll (post (fun b => b)
        (post (fun b => b) Store.empty 7 ⟨.str "A", .str "a", .arr [.str "x", .str "y"]⟩).2
        9 ⟨.str "B", .str "b", .undefined⟩).2).map (fun r => r.id)).Perm
      ((post (fun b => b)
        (post (fun b => b) Store.empty 7 ⟨.str "A", .str "a", .arr [.str "x", .str "y"]⟩).2
        9 ⟨.str "B", .str "b", .undefined⟩).2.questions.map (fun q => q.id)) ∧
    listAll (post (fun b => b)
        (post (fun b => b) Store.empty 7 ⟨.str "A", .str "a", .arr [.str "x", .str "y"]⟩).2
        9 ⟨.str "B", .str "b", .undefined⟩).2 =
      [⟨2, "B", "b", some "b", 9, none⟩, ⟨1, "A", "a", some "a", 7, some "x,y"⟩] :=
  ⟨⟨by decide, by decide⟩,
    (listAll_one_row_per_question
      (post (fun b => b)
        (post (fun b => b) Store.empty 7 ⟨.str "A", .str "a", .arr [.str "x", .str "y"]⟩).2
        9 ⟨.str "B", .str "b", .undefined⟩).2 (by decide) (by decide)).1,
    by decide⟩

/-- C9 (counterexample): in the store reached by 2^53 creates followed by one more, the
question "X" has the id 2^53 + 1 and no association.  getById of 2^53 + 1 answers its
row under the id 2^53, with a tags field that holds "Old", a tag of question 2^53. -/
theorem getById_answers_other_id :
    Reachable (fun b => b) (lateStore (fun b => b) 5) ∧
    (⟨maxExact + 1, "X", "Y", some "Y", 5⟩ : QuestionRow) ∈
      (lateStore (fun b => b) 5).questions ∧
    (∀ a ∈ (lateStore (fun b => b) 5).question_tags, a.question_id ≠ maxExact + 1) ∧
    ∃ tags,
      getById (lateStore (fun b => b) 5) (maxExact + 1) =
        (.found ⟨maxExact, "X", "Y", some "Y", 5⟩ tags, lateStore (fun b => b) 5) ∧
      some "Old" ∈ tags :=
  ⟨lateStore_reachable _ _, by simp [lateStore, lateStoreAt],
    fun a ha => (lateStoreAt_no_link _ _ _ a ha).1,
    _, lateStore_getById_stored _ _, lateStoreAt_old_name _ _ _ one_lt_maxExact⟩

/-- C9 (amended): getById leaves the store unchanged and answers NotFound exactly when
no question row has the requested id.  Otherwise, when question identifiers are unique
and the id is at most 2^53, it answers the complete row of that question together with
the names of the tag rows joined to the associations of that id, each once per
association and tag row. -/
theorem getById_notFound_iff (s : Store) (id : Nat) :
    (getById s id).2 = s ∧
    ((getById s id).1 = .notFound ↔ ∀ q ∈ s.questions, q.id ≠ id) ∧
    (∀ q ∈ s.questions, q.id = id → (s.questions.map (fun q => q.id)).Nodup →
      id ≤ maxExact →
      ∃ tags, (getById s id).1 = .found q tags ∧
        tags.Perm
          ((s.question_tags.filter (fun a => a.question_id = id)).flatMap (fun a =>
            (s.tags.filter (fun t => t.id = a.tag_id)).map (fun t => t.name)))) := by
  refine ⟨?_, ?_, ?_⟩
  · unfold getById
    split <;> rfl
  · constructor
    · intro h q hq e
      obtain ⟨q2, hf⟩ := find_of_mem s id q hq e
      rw [(getById_of_find s id q2 hf).2.2] at h
      cases h
    · intro h
      cases hf : s.questions.find? (fun q => q.id = id) with
      | none => simp only [getById, hf]
      | some q2 =>
        exact absurd (getById_of_find s id q2 hf).2.1 (h q2 (getById_of_find s id q2 hf).1)
  · intro q hq e hnd hx
    subst e
    rw [getById_of_mem s q hq hnd hx]
    exact ⟨_, rfl, selectTagNames_perm s q.id⟩

theorem getById_notFound_iff_witness :
    ((⟨1, "T", "B", some "B", 0⟩ : QuestionRow) ∈
        (post (fun b => b) Store.empty 0
          ⟨.str "T", .str "B", .arr [.str "Bible"]⟩).2.questions ∧
      (⟨1, "T", "B", some "B", 0⟩ : QuestionRow).id = 1 ∧
      ((post (fun b => b) Store.empty 0
          ⟨.str "T", .str "B", .arr [.str "Bible"]⟩).2.questions.map (fun q => q.id)).Nodup ∧
      1 ≤ maxExact) ∧
    ∃ tags,
      (getById (post (fun b => b) Store.empty 0
          ⟨.str "T", .str "B", .arr [.str "Bible"]⟩).2 1).1 =
        .found ⟨1, "T", "B", some "B", 0⟩ tags ∧
      tags.Perm
        (((post (fun b => b) Store.empty 0
            ⟨.str "T", .str "B", .arr [.str "Bible"]⟩).2.question_tags.filter
            (fun a => a.question_id = 1)).flatMap (fun a =>
          ((post (fun b => b) Store.empty 0
            ⟨.str "T", .str "B", .arr [.str "Bible"]⟩).2.tags.filter
            (fun t => t.id = a.tag_id)).map (fun t => t.name))) :=
  ⟨⟨by decide, rfl, by decide, by decide⟩,
    (getById_notFound_iff
      (post (fun b => b) Store.empty 0 ⟨.str "T", .str "B", .arr [.str "Bible"]⟩).2 1).2.2
      ⟨1, "T", "B", some "B", 0⟩ (by decide) rfl (by decide) (by decide)⟩

/-- C10 (counterexample): from the store reached by 2^53 creates of title "T" and body
"B", the create of title "X" and body "Y" succeeds and returns N = 2^53, but the row
with that title and body is stored under 2^53 + 1; the row under N is still the one of
title "T" and body "B". -/
theorem create_stores_under_other_id :
    Reachable (fun b => b) (seriesStore (fun b => b) maxExact) ∧
    post (fun b => b) (seriesStore (fun b => b) maxExact) 5 lateRequest =
      (.success maxExact, lateStore (fun b => b) 5) ∧
    (⟨maxExact + 1, "X", "Y", some "Y", 5⟩ : QuestionRow) ∈
      (lateStore (fun b => b) 5).questions ∧
    ∃ tags, (getById (lateStore (fun b => b) 5) maxExact).1 =
      .found ⟨maxExact, "T", "B", some "B", 0⟩ tags :=
  ⟨seriesStore_reachable _ _ le_rfl, lateStore_post _ _, by simp [lateStore, lateStoreAt],
    _, congrArg Prod.fst (lateStore_getById_answered _ _)⟩

/-- C10 (amended): stored html is the rendering of the stored body.  In every store
reached from the empty one by seeding and create calls each question row has
html = render body; a successful create with text title and body that returns N and
leaves no question identifier above 2^53 stores exactly that title and body, with
html = render body, under N; and no create changes a row of the questions table that
already exists: the table afterwards is the table before followed by the new rows. -/
theorem stored_html_is_rendered_body (render : String → String) :
    (∀ s, Reachable render s → ∀ q ∈ s.questions, q.html = some (render q.body)) ∧
    (∀ s now title body tags N s',
      post render s now ⟨.str title, .str body, tags⟩ = (.success N, s') →
      (∀ q ∈ s'.questions, q.id ≤ maxExact) →
        (⟨N, title, body, some (render body), now⟩ : QuestionRow) ∈ s'.questions ∧
        ∃ names, getById s' N = (.found ⟨N, title, body, some (render body), now⟩ names, s')) ∧
    (∀ s now req, ∃ extra, (post render s now req).2.questions = s.questions ++ extra) := by
  refine ⟨fun s hs => hs.htmlRendered, ?_, fun s now req => post_questions render s now req⟩
  intro s now title body tags N s' hp hx
  obtain ⟨t, b, r, ts, hi, hn, hN, -, hloop⟩ := post_success render s s' now N _ hp
  obtain ⟨hb, ht⟩ := hi
  simp only [JsVal.str.injEq] at hb
  simp only [bindArg, bindValue, Except.ok.injEq, List.cons.injEq, Option.some.injEq,
    and_true] at ht
  subst hb ht
  have hext : Extends (jsNumber r) (afterInsert render s now title body r) s' := by
    have := tagsForEach_extends (jsNumber r) (afterInsert render s now title body r) ts
    rwa [hloop] at this
  have hmem : newQuestion render now title body r ∈ s'.questions := by
    rw [hext.1]
    simp [afterInsert]
  have hr : r ≤ maxExact := hx _ hmem
  rw [jsNumber_of_le hr] at hN
  subst hN
  exact ⟨hmem, _, getById_new render s s' now _ title body N hn hr hext⟩

theorem stored_html_is_rendered_body_witness :
    Reachable (fun b => b)
      (post (fun b => b) (seed (fun b => b) (fun _ => 5) Store.empty) 9
        ⟨.str "T", .str "# B", .arr [.str "Bible"]⟩).2 ∧
    ∀ q ∈ (post (fun b => b) (seed (fun b => b) (fun _ => 5) Store.empty) 9
        ⟨.str "T", .str "# B", .arr [.str "Bible"]⟩).2.questions,
      q.html = some ((fun b => b) q.body) :=
  ⟨Reachable.post _ _ _ (Reachable.seed _ _ Reachable.empty),
    (stored_html_is_rendered_body (fun b => b)).1 _
      (Reachable.post _ _ _ (Reachable.seed _ _ Reachable.empty))⟩

end TheologyQA
